import Mathlib

/-!
Verification development for the anvil build orchestrator.

The definitions below are shallow embeddings of the Python sources:
  * `anvil/async.py`   — the `Deferred` single-assignment future and
    `gather_deferreds`;
  * `anvil/util.py`    — `is_rule_path` and `validate_names`;
  * `anvil/rule.py`    — `Rule.__init__` name validation;
  * `anvil/graph.py`   — `RuleGraph._ensure_rules_present`,
    `has_dependency` and `calculate_rule_sequence`;
  * `anvil/context.py` — `BuildContext.execute_async` (the pump loop),
    `_execute_rule`, `RuleContext.check_predecessor_failures`,
    `cascade_failure` and `get_rule_results`.

Python exceptions are modelled with `Except`; Python's bounded call stack
is modelled with an explicit fuel parameter (running out of fuel is a
distinct error, corresponding to Python's `RecursionError`).  Callbacks
attached to a `Deferred` are modelled as opaque listener identifiers and
every operation returns, besides the updated state, the ordered list of
listener invocations it performed.
-/

namespace Anvil

/-! ## `anvil/async.py`: the `Deferred` future -/

/-- State of `async.Deferred.__init__`: the two listener lists, the
`_is_done` and `_failed` flags and the stored resolution payload
(`_args`/`_kwargs` are collapsed into one payload of type `α`; `none`
models the pre-resolution `None`).  Listener functions are modelled by
opaque identifiers of type `ι`. -/
structure Deferred (ι α : Type) where
  callbacks : List ι
  errbacks : List ι
  isDone : Bool
  failed : Bool
  value : Option α
  deriving Repr, DecidableEq

/-- A fresh deferred, as produced by `Deferred.__init__`. -/
def Deferred.init (ι α : Type) : Deferred ι α :=
  { callbacks := [], errbacks := [], isDone := false, failed := false,
    value := none }

/-- Result of `Deferred.callback`/`Deferred.errback`.  `assertFailed`
models the `assert not self._is_done` firing: the `AssertionError` is
raised before any field is mutated, so the carried state is the input
state unchanged. -/
inductive DeferredOut (ι α : Type) where
  | ok (d : Deferred ι α) (fired : List (ι × Option α))
  | assertFailed (d : Deferred ι α)
  deriving Repr, DecidableEq

/-- `Deferred.add_callback_fn`: if already done and not failed the
listener fires immediately with the stored payload; if done and failed it
is silently dropped; otherwise it is appended to `_callbacks`. -/
def Deferred.addCallbackFn {ι α : Type} (d : Deferred ι α) (fn : ι) :
    Deferred ι α × List (ι × Option α) :=
  if d.isDone then
    if !d.failed then (d, [(fn, d.value)]) else (d, [])
  else
    ({ d with callbacks := d.callbacks ++ [fn] }, [])

/-- `Deferred.add_errback_fn`: symmetric to `add_callback_fn`. -/
def Deferred.addErrbackFn {ι α : Type} (d : Deferred ι α) (fn : ι) :
    Deferred ι α × List (ι × Option α) :=
  if d.isDone then
    if d.failed then (d, [(fn, d.value)]) else (d, [])
  else
    ({ d with errbacks := d.errbacks ++ [fn] }, [])

/-- `Deferred.callback`: asserts not yet done, marks done, stores the
payload, clears both listener lists and fires the previously registered
callbacks in registration order with the payload. -/
def Deferred.callback {ι α : Type} (d : Deferred ι α) (x : α) :
    DeferredOut ι α :=
  if d.isDone then .assertFailed d
  else
    .ok { callbacks := [], errbacks := [], isDone := true, failed := false,
          value := some x }
      (d.callbacks.map (fun fn => (fn, some x)))

/-- `Deferred.errback`: asserts not yet done, marks done and failed,
stores the payload, clears both listener lists and fires the previously
registered errbacks in registration order.  (The `_exception` field,
which merely caches `args[0]` when it is an `Exception`, is not
observable through the listener protocol and is not modelled
separately.) -/
def Deferred.errback {ι α : Type} (d : Deferred ι α) (x : α) :
    DeferredOut ι α :=
  if d.isDone then .assertFailed d
  else
    .ok { callbacks := [], errbacks := [], isDone := true, failed := true,
          value := some x }
      (d.errbacks.map (fun fn => (fn, some x)))

/-- Registers a batch of listeners on a deferred: an entry `(fn, true)`
goes through `add_callback_fn`, `(fn, false)` through `add_errback_fn`.
Returns the final state and the concatenation of all invocations the
registrations performed (non-empty only on an already-resolved
deferred). -/
def Deferred.registerAll {ι α : Type} (d : Deferred ι α)
    (regs : List (ι × Bool)) : Deferred ι α × List (ι × Option α) :=
  match regs with
  | [] => (d, [])
  | (fn, kind) :: rest =>
    let (d1, ev1) :=
      if kind then d.addCallbackFn fn else d.addErrbackFn fn
    let (d2, ev2) := d1.registerAll rest
    (d2, ev1 ++ ev2)

/-- The success listeners in a registration batch, in order. -/
def successIds {ι : Type} (regs : List (ι × Bool)) : List ι :=
  (regs.filter (fun r => r.2)).map (fun r => r.1)

/-- The failure listeners in a registration batch, in order. -/
def failureIds {ι : Type} (regs : List (ι × Bool)) : List ι :=
  (regs.filter (fun r => !r.2)).map (fun r => r.1)

theorem registerAll_pending {ι α : Type} (d : Deferred ι α)
    (regs : List (ι × Bool)) (h : d.isDone = false) :
    (d.registerAll regs).1 =
      { d with callbacks := d.callbacks ++ successIds regs,
               errbacks := d.errbacks ++ failureIds regs } ∧
    (d.registerAll regs).2 = [] := by
  induction regs generalizing d with
  | nil =>
    simp [Deferred.registerAll, successIds, failureIds]
  | cons r rest ih =>
    obtain ⟨fn, kind⟩ := r
    cases kind with
    | false =>
      have := ih { d with errbacks := d.errbacks ++ [fn] } h
      simp [Deferred.registerAll, Deferred.addErrbackFn, h, successIds,
        failureIds, List.filter_cons] at this ⊢
      exact this
    | true =>
      have := ih { d with callbacks := d.callbacks ++ [fn] } h
      simp [Deferred.registerAll, Deferred.addCallbackFn, h, successIds,
        failureIds, List.filter_cons] at this ⊢
      exact this

theorem registerAll_done_success {ι α : Type} (d : Deferred ι α)
    (regs : List (ι × Bool)) (h : d.isDone = true)
    (hf : d.failed = false) :
    (d.registerAll regs).1 = d ∧
    (d.registerAll regs).2 =
      (successIds regs).map (fun fn => (fn, d.value)) := by
  induction regs with
  | nil => simp [Deferred.registerAll, successIds]
  | cons r rest ih =>
    obtain ⟨fn, kind⟩ := r
    cases kind with
    | false =>
      simp [Deferred.registerAll, Deferred.addErrbackFn, h, hf, successIds,
        List.filter_cons] at ih ⊢
      exact ih
    | true =>
      simp [Deferred.registerAll, Deferred.addCallbackFn, h, hf, successIds,
        List.filter_cons] at ih ⊢
      exact ih

theorem registerAll_done_failure {ι α : Type} (d : Deferred ι α)
    (regs : List (ι × Bool)) (h : d.isDone = true)
    (hf : d.failed = true) :
    (d.registerAll regs).1 = d ∧
    (d.registerAll regs).2 =
      (failureIds regs).map (fun fn => (fn, d.value)) := by
  induction regs with
  | nil => simp [Deferred.registerAll, failureIds]
  | cons r rest ih =>
    obtain ⟨fn, kind⟩ := r
    cases kind with
    | false =>
      simp [Deferred.registerAll, Deferred.addErrbackFn, h, hf, failureIds,
        List.filter_cons] at ih ⊢
      exact ih
    | true =>
      simp [Deferred.registerAll, Deferred.addCallbackFn, h, hf, failureIds,
        List.filter_cons] at ih ⊢
      exact ih

/-- C6: a deferred that has already been resolved (whether by `callback`
or by `errback`, so in all four orderings of first and second
resolution) rejects any further `callback` or `errback` with the
assertion error, leaving the stored state unchanged; and from any
unresolved state either resolution marks the deferred done, so the
second attempt always hits that assertion. -/
theorem deferred_double_resolution_asserts {ι α : Type}
    (d : Deferred ι α) (x y : α) (h : d.isDone = true) :
    d.callback y = .assertFailed d ∧ d.errback y = .assertFailed d ∧
    (∀ d0 : Deferred ι α, d0.isDone = false →
      ((∃ ev, d0.callback x = .ok d ev) ∨ (∃ ev, d0.errback x = .ok d ev)) →
      d.value = some x) := by
  refine ⟨by simp [Deferred.callback, h], by simp [Deferred.errback, h], ?_⟩
  intro d0 h0 hres
  rcases hres with ⟨ev, hev⟩ | ⟨ev, hev⟩ <;>
    simp [Deferred.callback, Deferred.errback, h0] at hev <;>
    simp [← hev.1]

/-- Witness for `deferred_double_resolution_asserts` at a concrete
resolved deferred. -/
theorem deferred_double_resolution_asserts_witness :
    ((Deferred.init Nat Nat).callback 7 = .ok
        { callbacks := [], errbacks := [], isDone := true, failed := false,
          value := some 7 } []) ∧
    ({ callbacks := [], errbacks := [], isDone := true, failed := false,
       value := some 7 : Deferred Nat Nat }.callback 9 = .assertFailed
        { callbacks := [], errbacks := [], isDone := true, failed := false,
          value := some 7 }) := by
  constructor
  · decide
  · exact (deferred_double_resolution_asserts
      { callbacks := [], errbacks := [], isDone := true, failed := false,
        value := some 7 : Deferred Nat Nat } 7 9 rfl).1

/-- A full listener-protocol run on one deferred: start fresh, register
the `pre` batch, resolve (by `callback` when `succeedIt`, by `errback`
otherwise) with payload `x`, then register the `post` batch.  Returns
the invocations fired at each of the three stages (`none` if the
resolution hit the double-resolution assertion, which cannot happen
here). -/
def Deferred.protocolRun (ι α : Type) (pre post : List (ι × Bool))
    (succeedIt : Bool) (x : α) :
    Option (List (ι × Option α) × List (ι × Option α) ×
      List (ι × Option α)) :=
  let r1 := (Deferred.init ι α).registerAll pre
  match (if succeedIt then r1.1.callback x else r1.1.errback x) with
  | .assertFailed _ => none
  | .ok d2 ev2 =>
    let r3 := d2.registerAll post
    some (r1.2, ev2, r3.2)

theorem protocolRun_eq {ι α : Type} (pre post : List (ι × Bool))
    (succeedIt : Bool) (x : α) :
    Deferred.protocolRun ι α pre post succeedIt x =
      some ([],
        (if succeedIt then successIds pre else failureIds pre).map
          (fun fn => (fn, some x)),
        (if succeedIt then successIds post else failureIds post).map
          (fun fn => (fn, some x))) := by
  have hinit : (Deferred.init ι α).isDone = false := rfl
  obtain ⟨hpre1, hpre2⟩ := registerAll_pending (Deferred.init ι α) pre hinit
  cases succeedIt with
  | true =>
    have hpost := registerAll_done_success
      ({ callbacks := [], errbacks := [], isDone := true, failed := false,
         value := some x : Deferred ι α }) post rfl rfl
    simp only [Deferred.protocolRun, hpre1, hpre2, if_true]
    simp [Deferred.callback, Deferred.init, hpost.2,
      Prod.ext_iff, hpost.1]
  | false =>
    have hpost := registerAll_done_failure
      ({ callbacks := [], errbacks := [], isDone := true, failed := true,
         value := some x : Deferred ι α }) post rfl rfl
    simp only [Deferred.protocolRun, hpre1, hpre2, if_false]
    simp [Deferred.errback, Deferred.init, hpost.2,
      Prod.ext_iff, hpost.1]

/-- C7: the listener protocol around a single resolution.  In a run that
registers `pre`, resolves with payload `x` and then registers `post`:
nothing fires before resolution; on a `callback` resolution exactly the
success listeners of `pre` fire at resolution time, in registration
order, each with `x`, and each success listener of `post` fires
immediately at its registration with the same payload, while failure
listeners never fire (and symmetrically for an `errback` resolution);
moreover, when the listener identifiers are all distinct, each listener
is invoked at most once across the run. -/
theorem deferred_listener_protocol {ι α : Type} [DecidableEq ι]
    (pre post : List (ι × Bool)) (x : α) (succeedIt : Bool)
    (hnodup : (pre.map Prod.fst ++ post.map Prod.fst).Nodup) :
    Deferred.protocolRun ι α pre post succeedIt x =
      some ([],
        (if succeedIt then successIds pre else failureIds pre).map
          (fun fn => (fn, some x)),
        (if succeedIt then successIds post else failureIds post).map
          (fun fn => (fn, some x))) ∧
    (∀ fn : ι,
      (successIds pre ++ successIds post).count fn ≤ 1 ∧
      (failureIds pre ++ failureIds post).count fn ≤ 1) := by
  refine ⟨protocolRun_eq pre post succeedIt x, ?_⟩
  have hsubS : ∀ l : List (ι × Bool),
      List.Sublist (successIds l) (l.map Prod.fst) := by
    intro l
    exact (List.filter_sublist l).map Prod.fst
  have hsubF : ∀ l : List (ι × Bool),
      List.Sublist (failureIds l) (l.map Prod.fst) := by
    intro l
    exact (List.filter_sublist l).map Prod.fst
  intro fn
  constructor
  · exact List.nodup_iff_count_le_one.mp
      (((hsubS pre).append (hsubS post)).nodup hnodup) fn
  · exact List.nodup_iff_count_le_one.mp
      (((hsubF pre).append (hsubF post)).nodup hnodup) fn

/-- Witness for `deferred_listener_protocol` on a concrete run: two
success listeners and one failure listener before resolution, one of
each after, resolved successfully. -/
theorem deferred_listener_protocol_witness :
    ([(0, true), (1, true), (2, false)].map Prod.fst ++
      [(3, false), (4, true)].map Prod.fst : List Nat).Nodup ∧
    Deferred.protocolRun Nat Nat [(0, true), (1, true), (2, false)]
        [(3, false), (4, true)] true 5 =
      some ([], [(0, some 5), (1, some 5)], [(4, some 5)]) := by
  refine ⟨by decide, ?_⟩
  have h := (deferred_listener_protocol (ι := Nat) (α := Nat)
    [(0, true), (1, true), (2, false)] [(3, false), (4, true)] 5 true
    (by decide)).1
  simpa [successIds] using h


/-! ## `anvil/async.py`: `gather_deferreds` -/

/-- Error raised when `_complete` scans `result_tuples` and indexes a
still-`None` slot (`result[0]` on `None` is a `TypeError` in Python).
Unreachable in real runs, where every slot is filled before the scan. -/
inductive GatherErr where
  | typeError
  deriving Repr, DecidableEq

/-- The state shared by the closures of `gather_deferreds`: the
`errback_if_any_fail` flag, the `pending` counter, the `result_tuples`
slot list (a slot holds `(success, payload)` once its input resolved)
and the resolution of the returned `gather_deferred` (`none` while
pending, `some (viaCallback, payload)` once resolved). -/
structure GatherState (α : Type) where
  errbackIfAnyFail : Bool
  pending : Nat
  resultTuples : List (Option (Bool × α))
  out : Option (Bool × List (Option (Bool × α)))
  deriving Repr, DecidableEq

/-- `gather_deferreds(deferreds, errback_if_any_fail)` head: with zero
inputs the returned deferred is called back immediately with `[]`;
otherwise `pending` starts at the input count and all slots are empty. -/
def gatherInit (α : Type) (n : Nat) (errbackIfAnyFail : Bool) :
    GatherState α :=
  if n = 0 then
    { errbackIfAnyFail := errbackIfAnyFail, pending := 0,
      resultTuples := [], out := some (true, []) }
  else
    { errbackIfAnyFail := errbackIfAnyFail, pending := n,
      resultTuples := List.replicate n none, out := none }

/-- The `any_failed` scan in `_complete`: walks `result_tuples` looking
for a slot whose `success` component is false. -/
def anyFailedScan {α : Type} :
    List (Option (Bool × α)) → Except GatherErr Bool
  | [] => .ok false
  | none :: _ => .error .typeError
  | some (ok, _) :: rest =>
    if !ok then .ok true else anyFailedScan rest

theorem exceptBindOk {ε α β : Type} (a : α) (f : α → Except ε β) :
    (do let x ← (Except.ok a : Except ε α); f x) = f a := rfl

/-- `_complete`: decrement `pending`; once it reaches zero resolve the
gather deferred — by callback when `errback_if_any_fail` is unset, and
otherwise by errback iff some slot records a failure, in both cases
carrying `result_tuples`. -/
def gatherComplete {α : Type} (st : GatherState α) :
    Except GatherErr (GatherState α) :=
  let st1 := { st with pending := st.pending - 1 }
  if st1.pending = 0 then
    if !st1.errbackIfAnyFail then
      .ok { st1 with out := some (true, st1.resultTuples) }
    else do
      let anyFailed ← anyFailedScan st1.resultTuples
      if anyFailed then .ok { st1 with out := some (false, st1.resultTuples) }
      else .ok { st1 with out := some (true, st1.resultTuples) }
  else
    .ok st1

/-- The `_callback`/`_errback` closure made by `_makecapture` for input
`i` firing with outcome `ok` and payload `x`: store the tuple in slot
`i`, then run `_complete`. -/
def gatherEvent {α : Type} (st : GatherState α) (i : Nat) (ok : Bool)
    (x : α) : Except GatherErr (GatherState α) :=
  gatherComplete
    { st with resultTuples := st.resultTuples.set i (some (ok, x)) }

/-- Processes a list of input-resolution events in completion order. -/
def gatherRun {α : Type} (st : GatherState α) :
    List (Nat × Bool × α) → Except GatherErr (GatherState α)
  | [] => .ok st
  | (i, ok, x) :: rest => do
    let st1 ← gatherEvent st i ok x
    gatherRun st1 rest

/-- The gather state after the inputs listed in `done` (and only those)
have resolved, each to its outcome. -/
def gatherMid {α : Type} (n : Nat) (flag : Bool)
    (outcomes : Fin n → Bool × α) (done : List (Fin n)) : GatherState α :=
  { errbackIfAnyFail := flag, pending := n - done.length,
    resultTuples :=
      List.ofFn (fun i => if i ∈ done then some (outcomes i) else none),
    out := none }

/-- The event list corresponding to resolving the inputs in `order`. -/
def gatherEvents {α : Type} {n : Nat} (outcomes : Fin n → Bool × α)
    (order : List (Fin n)) : List (Nat × Bool × α) :=
  order.map (fun i => (i.val, (outcomes i).1, (outcomes i).2))

theorem gatherEvent_mid {α : Type} {n : Nat} (flag : Bool)
    (outcomes : Fin n → Bool × α) (done : List (Fin n)) (i : Fin n)
    (hlen : done.length + 1 < n) :
    gatherEvent (gatherMid n flag outcomes done) i.val (outcomes i).1
        (outcomes i).2 =
      .ok (gatherMid n flag outcomes (done ++ [i])) := by
  have hset :
      (List.ofFn (fun j => if j ∈ done then some (outcomes j) else none)).set
          i.val (some (outcomes i)) =
        List.ofFn (fun j => if j ∈ done ++ [i] then some (outcomes j)
          else none) := by
    apply List.ext_getElem
    · simp
    · intro j hj hj2
      simp only [List.length_set, List.length_ofFn] at hj
      rw [List.getElem_set]
      rcases Nat.decEq i.val j with hne | heq
      · simp only [if_neg hne, List.getElem_ofFn]
        have : (⟨j, hj⟩ : Fin n) ∈ done ++ [i] ↔ (⟨j, hj⟩ : Fin n) ∈ done := by
          simp only [List.mem_append, List.mem_singleton]
          constructor
          · rintro (h | h)
            · exact h
            · exact absurd (congrArg Fin.val h.symm) hne
          · exact Or.inl
        simp [this]
      · subst heq
        simp only [if_pos rfl, List.getElem_ofFn]
        have : (⟨i.val, hj⟩ : Fin n) = i := Fin.ext rfl
        rw [this]
        simp
  have hpend : n - done.length - 1 ≠ 0 := by omega
  simp only [gatherEvent, gatherMid, gatherComplete, hset]
  simp only [if_neg hpend, Except.ok.injEq]
  refine GatherState.mk.injEq .. |>.mpr ⟨rfl, by simp; omega, rfl, rfl⟩

theorem gatherRun_partial {α : Type} {n : Nat} (flag : Bool)
    (outcomes : Fin n → Bool × α) (l done : List (Fin n))
    (hlen : done.length + l.length < n) :
    gatherRun (gatherMid n flag outcomes done) (gatherEvents outcomes l) =
      .ok (gatherMid n flag outcomes (done ++ l)) := by
  induction l generalizing done with
  | nil => simp [gatherRun, gatherEvents]
  | cons i rest ih =>
    have hstep := gatherEvent_mid flag outcomes done i (by
      simp at hlen; omega)
    have htail := ih (done ++ [i]) (by simp at hlen ⊢; omega)
    simp only [gatherEvents, List.map_cons, gatherRun, hstep,
      exceptBindOk] at htail ⊢
    rw [htail]
    simp

theorem anyFailedScan_allSome {α : Type} (l : List (Bool × α)) :
    anyFailedScan (l.map some) = .ok (l.any (fun t => !t.1)) := by
  induction l with
  | nil => simp [anyFailedScan]
  | cons t rest ih =>
    obtain ⟨ok, x⟩ := t
    cases ok <;> simp [anyFailedScan, ih]

theorem gatherRun_last {α : Type} {n : Nat} (flag : Bool)
    (outcomes : Fin n → Bool × α) (done : List (Fin n)) (i : Fin n)
    (hlen : done.length + 1 = n) (hnodup : (done ++ [i]).Nodup) :
    gatherRun (gatherMid n flag outcomes done) (gatherEvents outcomes [i]) =
      .ok { errbackIfAnyFail := flag, pending := 0,
            resultTuples := List.ofFn (fun j => some (outcomes j)),
            out := some
              (!(flag && (List.ofFn outcomes).any (fun t => !t.1)),
               List.ofFn (fun j => some (outcomes j))) } := by
  have hcover : ∀ j : Fin n, j ∈ done ++ [i] := by
    intro j
    have hcard : (done ++ [i]).toFinset = Finset.univ := by
      apply Finset.eq_univ_of_card
      rw [List.toFinset_card_of_nodup hnodup]
      simp [hlen]
    have : j ∈ (done ++ [i]).toFinset := by
      rw [hcard]; exact Finset.mem_univ j
    simpa using this
  have hset :
      (List.ofFn (fun j => if j ∈ done then some (outcomes j) else none)).set
          i.val (some (outcomes i)) =
        List.ofFn (fun j : Fin n => some (outcomes j)) := by
    apply List.ext_getElem
    · simp
    · intro j hj hj2
      simp only [List.length_set, List.length_ofFn] at hj
      rw [List.getElem_set]
      rcases Nat.decEq i.val j with hne | heq
      · simp only [if_neg hne, List.getElem_ofFn]
        have hj' := hcover ⟨j, hj⟩
        simp only [List.mem_append, List.mem_singleton] at hj'
        rcases hj' with h | h
        · simp [h]
        · exact absurd (congrArg Fin.val h.symm) hne
      · subst heq
        simp only [List.getElem_ofFn]
        have : (⟨i.val, hj⟩ : Fin n) = i := Fin.ext rfl
        rw [this]
        simp
  have hofn :
      (List.ofFn (fun j : Fin n => some (outcomes j))) =
        (List.ofFn outcomes).map some := by
    rw [List.map_ofFn]
    rfl
  have hpend : n - done.length - 1 = 0 := by omega
  simp only [gatherEvents, List.map_cons, List.map_nil, gatherRun,
    gatherEvent, gatherMid, hset, gatherComplete]
  simp only [hpend, if_pos rfl]
  cases flag with
  | false =>
    simp [gatherRun, exceptBindOk]
  | true =>
    simp only [Bool.not_true, Bool.false_eq_true, if_false, hofn,
      anyFailedScan_allSome, exceptBindOk]
    cases h : (List.ofFn outcomes).any (fun t => !t.1) <;>
      simp [gatherRun, h, hpend, exceptBindOk, hofn]

/-- C8: `gather_deferreds` over `n` inputs with eventual outcomes
`outcomes`, resolving in an arbitrary completion order: while fewer than
`n` inputs have resolved the gather deferred is unresolved; once all `n`
have resolved it is resolved carrying the `n`-length tuple list whose
slot `i` records input `i`'s outcome regardless of completion order,
resolved by callback when `errback_if_any_fail` is unset and otherwise
by errback iff at least one input failed; and with zero inputs it is
resolved immediately by callback with `[]`. -/
theorem gather_deferreds_spec {α : Type} (n : Nat) (flag : Bool)
    (outcomes : Fin n → Bool × α) (order : List (Fin n))
    (hnodup : order.Nodup) (hfull : order.length = n) :
    (n ≠ 0 → gatherInit α n flag =
      gatherMid n flag outcomes [] ∧
      ∀ k, k < n →
        gatherRun (gatherInit α n flag)
            (gatherEvents outcomes (order.take k)) =
          .ok (gatherMid n flag outcomes (order.take k))) ∧
    (∃ st, gatherRun (gatherInit α n flag) (gatherEvents outcomes order) =
        .ok st ∧
      st.resultTuples = List.ofFn (fun j => some (outcomes j)) ∧
      st.out = some
        (!(flag && (List.ofFn outcomes).any (fun t => !t.1)),
         List.ofFn (fun j => some (outcomes j))) ∧
      ((st.out.map Prod.fst = some false) ↔
        (flag = true ∧ ∃ i, (outcomes i).1 = false))) ∧
    (n = 0 → (gatherInit α n flag).out = some (true, [])) := by
  have hinit : n ≠ 0 → gatherInit α n flag = gatherMid n flag outcomes [] := by
    intro hn
    have h2 : (fun i : Fin n =>
        if i ∈ ([] : List (Fin n)) then some (outcomes i) else none) =
        (fun _ : Fin n => (none : Option (Bool × α))) := by
      funext i
      simp
    rw [gatherInit, gatherMid, if_neg hn, h2, List.ofFn_const]
    simp
  refine ⟨?_, ?_, ?_⟩
  · intro hn
    refine ⟨hinit hn, ?_⟩
    intro k hk
    rw [hinit hn]
    have h := gatherRun_partial flag outcomes (order.take k) []
      (by simp only [List.length_nil, List.length_take, Nat.zero_add]; omega)
    simpa only [List.nil_append] using h
  · rcases Nat.eq_zero_or_pos n with hn | hn
    · subst hn
      have : order = [] := List.length_eq_zero.mp hfull
      subst this
      refine ⟨gatherInit α 0 flag, rfl, ?_, ?_, ?_⟩
      · simp [gatherInit]
      · simp [gatherInit, List.ofFn_zero]
      · constructor
        · intro h
          simp [gatherInit] at h
        · rintro ⟨-, ⟨i, -⟩⟩
          exact absurd i.isLt (by omega)
    · rcases List.eq_nil_or_concat order with hcon | ⟨done, i, hsplit⟩
      · subst hcon
        simp only [List.length_nil] at hfull
        omega
      subst hsplit
      simp only [List.concat_eq_append] at hnodup hfull ⊢
      have hdl : done.length + 1 = n := by
        simpa using hfull
      have hev : gatherEvents outcomes (done ++ [i]) =
          gatherEvents outcomes done ++ gatherEvents outcomes [i] := by
        simp [gatherEvents]
      rw [hinit (by omega), hev]
      have hpart := gatherRun_partial flag outcomes done []
        (by simp only [List.length_nil, Nat.zero_add]; omega)
      simp only [List.nil_append] at hpart
      have hrunsplit : ∀ (st : GatherState α) l1 l2,
          gatherRun st (l1 ++ l2) =
            Except.bind (gatherRun st l1) (fun st1 => gatherRun st1 l2) := by
        intro st l1 l2
        induction l1 generalizing st with
        | nil => rfl
        | cons e rest ih =>
          obtain ⟨a, b, c⟩ := e
          simp only [List.cons_append, gatherRun]
          cases gatherEvent st a b c with
          | error e => rfl
          | ok st1 =>
            show gatherRun st1 (rest ++ l2) = _
            rw [ih st1]
            rfl
      rw [hrunsplit, hpart]
      have hbind : ((Except.ok (gatherMid n flag outcomes done)).bind
          fun st1 => gatherRun st1 (gatherEvents outcomes [i])) =
          gatherRun (gatherMid n flag outcomes done)
            (gatherEvents outcomes [i]) := rfl
      have hlast := gatherRun_last flag outcomes done i hdl (by
        simpa using hnodup)
      rw [hbind, hlast]
      refine ⟨_, rfl, rfl, rfl, ?_⟩
      have hany : ((List.ofFn outcomes).any fun t => !t.1) = true ↔
          ∃ i, (outcomes i).1 = false := by
        rw [List.any_eq_true]
        constructor
        · rintro ⟨t, ht, hfail⟩
          rw [List.mem_ofFn] at ht
          obtain ⟨j, hj⟩ := ht
          refine ⟨j, ?_⟩
          rw [hj]
          simpa using hfail
        · rintro ⟨j, hj⟩
          exact ⟨outcomes j, (List.mem_ofFn _ _).mpr ⟨j, rfl⟩, by simp [hj]⟩
      rw [← hany]
      cases flag <;> cases hx : (List.ofFn outcomes).any (fun t => !t.1) <;>
        simp [hx]
  · intro hn
    subst hn
    simp [gatherInit]

/-- Outcome table for the `gather_deferreds_spec` witness: input 0
succeeds with payload 10, input 1 fails with payload 20. -/
def gwOutcomes : Fin 2 → Bool × Nat :=
  fun i => if i.val = 0 then (true, 10) else (false, 20)

/-- Witness for `gather_deferreds_spec`: two inputs, the second failing,
resolving out of order with `errback_if_any_fail` set — the gather
deferred errbacks with both slots filled in input order. -/
theorem gather_deferreds_spec_witness :
    ([1, 0] : List (Fin 2)).Nodup ∧ ([1, 0] : List (Fin 2)).length = 2 ∧
    ∃ st, gatherRun (gatherInit Nat 2 true) (gatherEvents gwOutcomes [1, 0]) =
        .ok st ∧
      st.out = some (false, [some (true, 10), some (false, 20)]) := by
  refine ⟨by decide, by decide, ?_⟩
  obtain ⟨st, hrun, hres, hout, -⟩ :=
    (gather_deferreds_spec 2 true gwOutcomes [1, 0] (by decide) (by decide)).2.1
  refine ⟨st, hrun, ?_⟩
  rw [hout]
  rfl


/-! ## `anvil/util.py` and `anvil/rule.py`: names and rule construction -/

/-- The characters matched by Python's `\s` on a byte string
(`Rule._whitespace_re`). -/
def isPySpace (c : Char) : Bool :=
  c = ' ' || c = '\t' || c = '\n' || c = '\r' || c = '\x0b' || c = '\x0c'

/-- The substring after the last `':'` of a string, if any
(`string.rfind(value, ':')` in `util.is_rule_path`). -/
def afterLastColon : List Char → Option (List Char)
  | [] => none
  | c :: rest =>
    match afterLastColon rest with
    | some s => some s
    | none => if c = ':' then some rest else none

/-- `util.is_rule_path`: a non-empty string containing a `':'` with no
`/` or `\` path separator from the last `':'` onwards. -/
def isRulePath (value : String) : Bool :=
  if value.length = 0 then false
  else
    match afterLastColon value.data with
    | none => false
    | some s => !(s.contains '/' || s.contains '\\')

/-- Errors raised by `Rule.__init__` and `util.validate_names`. -/
inductive RuleErr where
  | invalidName
  | nameWhitespace
  | nameLeadingColon
  | nameTypeErr
  | nameNotRule
  deriving Repr, DecidableEq

/-- The name validation at the top of `Rule.__init__`: reject an empty
name, then a name containing any `\s` character (the raised message says
"leading or trailing whitespace" but the regex search matches interior
whitespace too), then a name starting with `':'`.  All three raise
`NameError`. -/
def ruleNameCheck (name : String) : Except RuleErr Unit :=
  if name.length = 0 then .error .invalidName
  else if name.data.any isPySpace then .error .nameWhitespace
  else if name.data.head? = some ':' then .error .nameLeadingColon
  else .ok ()

/-- `Rule.__init__` called with just a name (srcs/deps/src_filter left at
their `None` defaults, so no further validation fires): on success the
rule's `name` and its pre-parenting `path` `':name'`. -/
def ruleInit (name : String) : Except RuleErr (String × String) := do
  ruleNameCheck name
  .ok (name, ":" ++ name)

/-- `util.validate_names` on a list of names: each must be a non-empty
string with no leading/trailing `\s` character, and a rule path when
`require_semicolon` is set. -/
def validateNames (values : List String) (requireSemicolon : Bool) :
    Except RuleErr Unit :=
  match values with
  | [] => .ok ()
  | value :: rest =>
    if value.length = 0 then .error .nameTypeErr
    else if (value.data.head?.elim false isPySpace) ||
        (value.data.getLast?.elim false isPySpace) then
      .error .nameWhitespace
    else if requireSemicolon && !isRulePath value then .error .nameNotRule
    else validateNames rest requireSemicolon

/-- C9 counterexample: the name `"a b"` is non-empty, has no leading or
trailing whitespace and does not start with `':'`, so the claim says its
construction succeeds; but `Rule.__init__` searches for whitespace
anywhere in the name and raises `NameError` (`rule_test.py` asserts
exactly this for `Rule('a b')`). -/
theorem rule_init_interior_whitespace_counterexample :
    ("a b" ≠ "" ∧ ¬ isPySpace 'a' ∧ ¬ isPySpace 'b' ∧
      "a b".data.head? = some 'a' ∧ "a b".data.getLast? = some 'b' ∧
      "a b".data.head? ≠ some ':') ∧
    ruleInit "a b" = .error .nameWhitespace := by
  constructor
  · refine ⟨by decide, by decide, by decide, ?_, ?_, by decide⟩ <;> rfl
  · rfl

theorem exceptBindError {ε α β : Type} (e : ε) (f : α → Except ε β) :
    (do let x ← (Except.error e : Except ε α); f x) = .error e := rfl

/-- C9 (amended): constructing a `Rule` from a string name succeeds
exactly when the name is non-empty, contains no whitespace character
anywhere (not merely at the ends), and does not start with `':'`;
otherwise construction raises `NameError`. -/
theorem rule_init_name_amended (name : String) :
    ruleInit name = .ok (name, ":" ++ name) ↔
      (name ≠ "" ∧ (∀ c ∈ name.data, ¬ isPySpace c) ∧
        name.data.head? ≠ some ':') := by
  have hne0 : name.length = 0 ↔ name = "" := by
    constructor
    · intro h
      cases name with
      | mk l =>
        cases l with
        | nil => rfl
        | cons c rest => simp [String.length] at h
    · intro h
      rw [h]
      rfl
  by_cases h0 : name.length = 0
  · rw [hne0] at h0
    subst h0
    simp [ruleInit, ruleNameCheck, exceptBindError]
  · by_cases hw : name.data.any isPySpace = true
    · have hiff : ¬ (∀ c ∈ name.data, ¬ isPySpace c) := by
        intro hall
        obtain ⟨c, hcmem, hcsp⟩ := List.any_eq_true.mp hw
        exact absurd hcsp (hall c hcmem)
      simp only [ruleInit, ruleNameCheck, if_neg h0, hw, if_true,
        exceptBindError]
      constructor
      · intro h
        exact absurd h (by simp)
      · rintro ⟨-, hall, -⟩
        exact absurd (fun c hc => by simpa using hall c hc) hiff
    · have hwf : name.data.any isPySpace = false := by
        cases h : name.data.any isPySpace
        · rfl
        · exact absurd h hw
      have h2 : ∀ c ∈ name.data, ¬ isPySpace c := by
        intro c hcmem hcsp
        exact hw (List.any_eq_true.mpr ⟨c, hcmem, hcsp⟩)
      have h1 : name ≠ "" := fun h => h0 (by rw [h]; rfl)
      by_cases hc : name.data.head? = some ':'
      · simp [ruleInit, ruleNameCheck, if_neg h0, hwf, hc, exceptBindError]
      · have h2' : ∀ c ∈ name.data, isPySpace c = false := by
          intro c hcmem
          have := h2 c hcmem
          cases h : isPySpace c
          · rfl
          · exact absurd h this
        simp [ruleInit, ruleNameCheck, if_neg h0, hwf, hc, exceptBindOk,
          h1, h2']
        exact h2'



/-! ## `anvil/graph.py`: the rule graph

Rule paths are modelled as absolute strings and
`project.Project.resolve_rule` is specialised to a static, fully-loaded
module set (the rule whose `path` equals the requested path), so the
`requesting_module`-relative resolution plumbing drops away.  A rule's
`get_dependent_paths()` returns a Python `set`; it is modelled as a list
standing for one iteration order of that set, and the theorems quantify
over all orders. -/

/-- The data of one `rule.Rule` as consumed by the graph: its full path
and its dependent paths (`srcs ∪ deps`). -/
structure GRule where
  path : String
  dependentPaths : List String
  deriving Repr, DecidableEq

/-- The rule-path subset of a rule's dependent paths — the
`util.is_rule_path` filter applied wherever `graph.py` walks
`get_dependent_paths()`. -/
def GRule.ruleDeps (r : GRule) : List String :=
  r.dependentPaths.filter isRulePath

/-- A project: the full list of its rules. -/
abbrev Project : Type := List GRule

/-- `project.Project.resolve_rule` specialised to absolute paths over a
static module set: the (first) rule whose `path` is the requested
path, or `None`. -/
def resolveRule (proj : Project) (p : String) : Option GRule :=
  proj.find? (fun r => r.path = p)

/-- Errors out of `graph.py` operations: `KeyError` for unresolved
paths, `ValueError` for the cycle check, `AssertionError` for
`assert dep_node`/`assert rule`/`assert rule_node`, `AttributeError` for
attribute access on a `None` resolution, `RecursionError` for Python
stack exhaustion (the fuel parameter), and networkx's
`NetworkXUnfeasible` from `topological_sort`. -/
inductive GraphErr where
  | keyError (p : String)
  | cycleError
  | assertNode
  | assertRule
  | attrError
  | stackOverflow
  | unfeasible
  deriving Repr, DecidableEq

/-- `graph.RuleGraph` state: the `rule_nodes` map (keyed by rule path,
in insertion order) and the nx digraph's edge set, an edge pointing from
a dependency's node to the dependent's node.  The digraph's node set is
exactly the key set of `rule_nodes` (the code adds to both in
lockstep). -/
structure RuleGraph where
  ruleNodes : List (String × GRule)
  edges : List (String × String)
  deriving Repr, DecidableEq

/-- `RuleGraph.__init__`: empty graph. -/
def RuleGraph.empty : RuleGraph := ⟨[], []⟩

/-- The node (key, rule) stored for a path, if present
(`self.rule_nodes.get(path, None)`). -/
def RuleGraph.node? (g : RuleGraph) (p : String) : Option (String × GRule) :=
  g.ruleNodes.find? (fun pr => pr.1 = p)

/-- `RuleGraph.has_rule`. -/
def RuleGraph.hasRule (g : RuleGraph) (p : String) : Bool :=
  (g.node? p).isSome

/-- Node insertion (`rule_nodes[path] = node; graph.add_node(node)`). -/
def RuleGraph.addNode (g : RuleGraph) (r : GRule) : RuleGraph :=
  ⟨g.ruleNodes ++ [(r.path, r)], g.edges⟩

/-- nx `add_edge`: a no-op when the edge already exists. -/
def RuleGraph.addEdge (g : RuleGraph) (a b : String) : RuleGraph :=
  if (a, b) ∈ g.edges then g else ⟨g.ruleNodes, g.edges ++ [(a, b)]⟩

/-- Bounded reachability over an edge list: `reachN es n a b` holds when
a directed path of length at most `n` joins `a` to `b`. -/
def reachN (es : List (String × String)) : Nat → String → String → Bool
  | 0, a, b => a = b
  | n+1, a, b =>
    a = b || es.any (fun e => e.1 = a && reachN es n e.2 b)

/-- nx `has_path` on the rule graph: any path has length at most the
node count, so that fuel is complete (modelled from the networkx
contract; networkx is an external library). -/
def RuleGraph.hasPathB (g : RuleGraph) (a b : String) : Bool :=
  reachN g.edges g.ruleNodes.length a b

/-- `RuleGraph.has_dependency`: `KeyError` when either rule is missing,
else nx `has_path` from the predecessor's node to the rule's node. -/
def RuleGraph.hasDependency (g : RuleGraph)
    (rulePath predecessorRulePath : String) : Except GraphErr Bool :=
  if !(g.node? rulePath).isSome then .error (.keyError rulePath)
  else if !(g.node? predecessorRulePath).isSome then
    .error (.keyError predecessorRulePath)
  else .ok (g.hasPathB predecessorRulePath rulePath)

/-- nx `is_directed_acyclic_graph`: no node sits on a directed cycle
(an out-edge whose head reaches back to the node; modelled from the
networkx contract). -/
def RuleGraph.isDAG (g : RuleGraph) : Bool :=
  (g.ruleNodes.map Prod.fst).all (fun v =>
    !(g.edges.any (fun e =>
      e.1 = v && reachN g.edges g.ruleNodes.length e.2 v)))

/-- The inner loop of the edge phase of `_ensure_rules_present`: for
each (rule-path) dependency of `rulePath`'s rule, resolve it
(`AttributeError` on a `None` resolution), `assert dep_node` that its
node exists, and add the edge dependency → dependent. -/
def addDepEdges (proj : Project) (g : RuleGraph) (rulePath : String) :
    List String → Except GraphErr RuleGraph
  | [] => .ok g
  | dep :: rest =>
    match resolveRule proj dep with
    | none => .error .attrError
    | some depRule =>
      if (g.node? depRule.path).isSome then
        addDepEdges proj (g.addEdge depRule.path rulePath) rulePath rest
      else .error .assertNode

/-- The edge phase of `_ensure_rules_present`: add dependency edges for
every rule collected by the scan phase. -/
def addRulesEdges (proj : Project) (g : RuleGraph) :
    List GRule → Except GraphErr RuleGraph
  | [] => .ok g
  | rule :: rest => do
    let g1 ← addDepEdges proj g rule.path rule.ruleDeps
    addRulesEdges proj g1 rest

/-- Call descriptor for the `_ensure_rules_present` recursion:
`.present` is a call to `_ensure_rules_present` itself, `.scan` the
state of its first loop over the remaining requested paths. -/
inductive EnsureCall where
  | present (g : RuleGraph) (rulePaths : List String)
  | scan (g : RuleGraph) (rulePaths : List String)

/-- `RuleGraph._ensure_rules_present` (both its recursion and its first
loop, merged so the recursion is structural on the fuel): a `.present`
call scans/recursively adds the requested rules, then adds dependency
edges for all of them, then raises `ValueError` unless the graph is
still a DAG.  A `.scan` call resolves each requested path (`KeyError`
on failure) and collects the rules; a rule not yet in the graph is
inserted and its rule-path dependencies are recursively ensured.  The
fuel bounds the recursion depth (counting loop steps); exhausting it
models Python's `RecursionError`. -/
def ensureGo (proj : Project) :
    Nat → EnsureCall → Except GraphErr (RuleGraph × List GRule)
  | 0, _ => .error .stackOverflow
  | fuel+1, .present g rulePaths => do
    let (g1, rules) ← ensureGo proj fuel (.scan g rulePaths)
    let g2 ← addRulesEdges proj g1 rules
    if g2.isDAG then .ok (g2, rules) else .error .cycleError
  | _+1, .scan g [] => .ok (g, [])
  | fuel+1, .scan g (rulePath :: rest) =>
    match resolveRule proj rulePath with
    | none => .error (.keyError rulePath)
    | some rule =>
      if (g.node? rule.path).isSome then do
        let (g2, rules) ← ensureGo proj fuel (.scan g rest)
        .ok (g2, rule :: rules)
      else
        let g1 := g.addNode rule
        let deps := rule.ruleDeps
        if deps.isEmpty then do
          let (g2, rules) ← ensureGo proj fuel (.scan g1 rest)
          .ok (g2, rule :: rules)
        else do
          let (g15, _) ← ensureGo proj fuel (.present g1 deps)
          let (g2, rules) ← ensureGo proj fuel (.scan g15 rest)
          .ok (g2, rule :: rules)

/-- `RuleGraph._ensure_rules_present`. -/
def ensureRulesPresent (proj : Project) (fuel : Nat) (g : RuleGraph)
    (rulePaths : List String) : Except GraphErr (RuleGraph × List GRule) :=
  ensureGo proj fuel (.present g rulePaths)

/-- A sequence graph under construction (`sequence_graph` in
`calculate_rule_sequence`): plain nx digraph over rule-path nodes. -/
structure SeqGraph where
  nodes : List String
  edges : List (String × String)
  deriving Repr, DecidableEq

/-- nx `add_node` on the sequence graph (no-op when present). -/
def SeqGraph.addNode (sg : SeqGraph) (v : String) : SeqGraph :=
  if v ∈ sg.nodes then sg else ⟨sg.nodes ++ [v], sg.edges⟩

/-- nx `add_edge` on the sequence graph (no-op when present; endpoints
are already nodes wherever this is called). -/
def SeqGraph.addEdge (sg : SeqGraph) (a b : String) : SeqGraph :=
  if (a, b) ∈ sg.edges then sg else ⟨sg.nodes, sg.edges ++ [(a, b)]⟩

/-- `reverse_graph.out_edges_iter(v)`: the out-edges of `v`, in edge
insertion order. -/
def outEdges (redges : List (String × String)) (v : String) :
    List (String × String) :=
  redges.filter (fun e => e.1 = v)

/-- Call descriptor for the `_add_rule_node_dependencies` recursion:
`.node` is a call on one rule node, `.outs` the state of its loop over
the remaining out-edges. -/
inductive SeqCall where
  | node (sg : SeqGraph) (v : String)
  | outs (sg : SeqGraph) (v : String) (outList : List (String × String))

/-- `_add_rule_node_dependencies`, structurally on the fuel: a `.node`
call skips a visited node and otherwise adds it and walks its
out-edges in the reversed rule graph; a `.outs` step recurses into an
unvisited out-neighbour and then adds the corresponding edge. -/
def seqGo (redges : List (String × String)) :
    Nat → SeqCall → Except GraphErr SeqGraph
  | 0, _ => .error .stackOverflow
  | fuel+1, .node sg v =>
    if v ∈ sg.nodes then .ok sg
    else seqGo redges fuel (.outs (sg.addNode v) v (outEdges redges v))
  | _+1, .outs sg _ [] => .ok sg
  | fuel+1, .outs sg v (e :: rest) => do
    let sg1 ←
      if e.2 ∈ sg.nodes then .ok sg else seqGo redges fuel (.node sg e.2)
    seqGo redges fuel (.outs (sg1.addEdge v e.2) v rest)

/-- `_add_rule_node_dependencies` on one node. -/
def addSeqDeps (redges : List (String × String)) (fuel : Nat)
    (sg : SeqGraph) (v : String) : Except GraphErr SeqGraph :=
  seqGo redges fuel (.node sg v)

/-- The target loop of `calculate_rule_sequence`: `assert rule` each
target resolves, `assert rule_node` its node exists, then run the
depth-first dependency walk. -/
def seqTargetsLoop (proj : Project) (g : RuleGraph)
    (redges : List (String × String)) (fuel : Nat) :
    SeqGraph → List String → Except GraphErr SeqGraph
  | sg, [] => .ok sg
  | sg, t :: rest =>
    match resolveRule proj t with
    | none => .error .assertRule
    | some rule =>
      if (g.node? rule.path).isSome then do
        let sg1 ← addSeqDeps redges fuel sg rule.path
        seqTargetsLoop proj g redges fuel sg1 rest
      else .error .assertNode

/-- One step of nx `topological_sort`: the first remaining node with no
incoming edge from a remaining node. -/
def topoPick (ns : List String) (es : List (String × String)) :
    Option String :=
  ns.find? (fun v => !(es.any (fun e => e.2 = v && decide (e.1 ∈ ns))))

/-- nx `topological_sort` (modelled from the networkx contract by
Kahn's algorithm: repeatedly emit a node with no incoming edge among
the remaining nodes; raises `NetworkXUnfeasible` on a cyclic graph;
any valid tie-break is acceptable to the callers).  The fuel is spent
once per emitted node, so `ns.length` suffices. -/
def topoSortLoop (es : List (String × String)) :
    Nat → List String → Except GraphErr (List String)
  | 0, ns => if ns.isEmpty then .ok [] else .error .stackOverflow
  | fuel+1, ns =>
    match topoPick ns es with
    | none => if ns.isEmpty then .ok [] else .error .unfeasible
    | some v => do
      let rest ← topoSortLoop es fuel (ns.erase v)
      .ok (v :: rest)

/-- `nx.topological_sort(reversed_sequence_graph)`. -/
def topoSort (sg : SeqGraph) : Except GraphErr (List String) :=
  topoSortLoop sg.edges sg.nodes.length sg.nodes

/-- `RuleGraph.calculate_rule_sequence`: ensure the targets are present,
reverse the graph, build the sequence graph from the targets, reverse
it back to dependencies-first orientation, topologically sort it and
return the rules in that order. -/
def calculateRuleSequence (proj : Project) (fuel : Nat) (g : RuleGraph)
    (targetRulePaths : List String) :
    Except GraphErr (RuleGraph × List GRule) := do
  let (g', _) ← ensureRulesPresent proj fuel g targetRulePaths
  let redges := g'.edges.map (fun e => (e.2, e.1))
  let sg ← seqTargetsLoop proj g' redges fuel ⟨[], []⟩ targetRulePaths
  let rsg : SeqGraph := ⟨sg.nodes, sg.edges.map (fun e => (e.2, e.1))⟩
  let sorted ← topoSort rsg
  let seq ← sorted.mapM (fun p =>
    match g'.node? p with
    | some pr => .ok pr.2
    | none => .error (.keyError p))
  .ok (g', seq)



/-! ## C2: cycle handling of `_ensure_rules_present` -/

/-- The spec's two-rule cycle: `A` depends on `B`, `B` on `A`. -/
def twoRuleCycleProject : Project :=
  [⟨"m:A", ["m:B"]⟩, ⟨"m:B", ["m:A"]⟩]

/-- A three-rule cyclic project: `A` depends on `B` and `C` (the set of
dependent paths iterating `B` first), `B` depends back on `A`, `C` on
nothing. -/
def threeRuleCycleProject : Project :=
  [⟨"m:A", ["m:B", "m:C"]⟩, ⟨"m:B", ["m:A"]⟩, ⟨"m:C", []⟩]

/-- C2 (code bug): on the spec's two-rule cycle both
`_ensure_rules_present` and `calculate_rule_sequence` do raise the
`ValueError` cycle error; but on `threeRuleCycleProject` the recursion
reaches the edge phase for rule `A` while `C`'s node has not been added
yet, so the `assert dep_node` in the edge loop fires — an
`AssertionError`, not the ValueError-class cycle error the claim
promises for every cyclic project (the code comment "Node should exist
due to recursive addition above" documents the violated assumption).
No sequence is returned in either case. -/
theorem cycle_detection_assertion_bug :
    ensureRulesPresent twoRuleCycleProject 10 RuleGraph.empty ["m:A"] =
      .error .cycleError ∧
    calculateRuleSequence twoRuleCycleProject 10 RuleGraph.empty ["m:A"] =
      .error .cycleError ∧
    ensureRulesPresent threeRuleCycleProject 10 RuleGraph.empty ["m:A"] =
      .error .assertNode ∧
    calculateRuleSequence threeRuleCycleProject 10 RuleGraph.empty ["m:A"] =
      .error .assertNode := by
  refine ⟨?_, ?_, ?_, ?_⟩ <;> rfl



/-! ## `anvil/context.py`: the build context and the pump loop

The execution scenarios of the claims run under the in-process task
executor with rules (like the tests' `SucceedRule`/`FailRule`) that
resolve their deferred synchronously inside `begin`, so a rule's work
is summarized by an outcome function `behaviors : String → Bool`
(`true` = the rule's `begin` calls `_succeed()`, `false` = `_fail()`),
and the deferred callbacks attached in `_issue_rule` fire immediately
at registration.  The scenario rules declare no file sources, so the
file-system `src` resolution in `RuleContext.__init__` is empty. -/

/-- `context.Status`. -/
inductive Status where
  | waiting
  | running
  | succeeded
  | failed
  deriving Repr, DecidableEq

/-- One `RuleContext`: its status, whether `begin()` was ever invoked,
and its accumulated output files. -/
structure RuleCtx where
  status : Status
  began : Bool
  allOutputFiles : List String
  deriving Repr, DecidableEq

/-- The mutable state captured by the closures of
`BuildContext.execute_async`: the run flags, the rule graph, the
`rule_contexts` map, the `remaining_rules` deque, the
`in_flight_rules` list, the `any_failed` cell and the resolution of
`main_deferred` (`none` pending, `some true` callback, `some false`
errback). -/
structure ExecState where
  stopOnError : Bool
  graph : RuleGraph
  ruleContexts : List (String × RuleCtx)
  remaining : List GRule
  inFlight : List GRule
  anyFailed : Bool
  mainDone : Option Bool
  deriving Repr, DecidableEq

/-- Errors out of the execution layer: the `assert` in `_execute_rule`,
attribute access on a `None` lookup, stack exhaustion, and errors
propagated from validation and the graph layer. -/
inductive ExecErr where
  | assertCtx
  | attrNone
  | stackOverflow
  | graphErr (e : GraphErr)
  | nameErr (e : RuleErr)
  | keyError (p : String)
  deriving Repr, DecidableEq

/-- Looks up a rule path's execution context
(`self.rule_contexts.get(path)` / `has_key`). -/
def lookupCtx (st : ExecState) (p : String) : Option RuleCtx :=
  (st.ruleContexts.find? (fun pc => pc.1 = p)).map Prod.snd

/-- Replaces the context stored for `p` (mutation of the shared
`RuleContext` object). -/
def setCtx (ctxs : List (String × RuleCtx)) (p : String) (c : RuleCtx) :
    List (String × RuleCtx) :=
  ctxs.map (fun pc => if pc.1 = p then (p, c) else pc)

/-- `RuleContext.check_predecessor_failures`: walk the rule's
(rule-path) dependencies; resolve each and read its context's status
(`AttributeError` on a `None` resolution or missing context); true as
soon as one is `FAILED`. -/
def checkPredecessorFailures (proj : Project)
    (ctxs : List (String × RuleCtx)) : List String → Except ExecErr Bool
  | [] => .ok false
  | dep :: rest =>
    match resolveRule proj dep with
    | none => .error .attrNone
    | some other =>
      match ctxs.find? (fun pc => pc.1 = other.path) with
      | none => .error .attrNone
      | some pc =>
        if pc.2.status = .failed then .ok true
        else checkPredecessorFailures proj ctxs rest

/-- `BuildContext._execute_rule`: assert the rule has no context yet,
create a fresh `WAITING` context, then either `cascade_failure()` (the
context ends `FAILED` with `begin` never invoked, deferred errbacked)
when some predecessor failed, or `begin()` (status `RUNNING`, then the
rule's behavior resolves the deferred: `SUCCEEDED` or `FAILED`).  The
returned flag is the deferred's resolution: `true` callback, `false`
errback. -/
def executeRule (proj : Project) (behaviors : String → Bool)
    (st : ExecState) (rule : GRule) : Except ExecErr (ExecState × Bool) :=
  if ((st.ruleContexts.find? (fun pc => pc.1 = rule.path)).isSome) then
    .error .assertCtx
  else do
    let ctx0 : RuleCtx := ⟨.waiting, false, []⟩
    let st1 :=
      { st with ruleContexts := st.ruleContexts ++ [(rule.path, ctx0)] }
    let failedPred ←
      checkPredecessorFailures proj st1.ruleContexts rule.ruleDeps
    if failedPred then
      .ok ({ st1 with
        ruleContexts := setCtx st1.ruleContexts rule.path
          ⟨.failed, false, []⟩ }, false)
    else
      let ok := behaviors rule.path
      .ok ({ st1 with
        ruleContexts := setCtx st1.ruleContexts rule.path
          ⟨if ok then .succeeded else .failed, true, []⟩ }, ok)

/-- The in-flight blocking check of `_pump`: does `next` depend (via
`RuleGraph.has_dependency`) on any currently in-flight rule? -/
def anyInFlightDep (g : RuleGraph) (next : GRule) :
    List GRule → Except ExecErr Bool
  | [] => .ok false
  | r :: rest => do
    let b ←
      (match g.hasDependency next.path r.path with
       | .ok b => Except.ok b
       | .error e => Except.error (ExecErr.graphErr e))
    if b then .ok true else anyInFlightDep g next rest

/-- Call descriptor for the pump recursion: `.pump` is a `_pump(…)`
invocation, `.issue` an `_issue_rule(rule)` one. -/
inductive PumpCall where
  | pump (prev : Bool)
  | issue (rule : GRule)

/-- `_pump` and `_issue_rule`, merged structurally on the fuel.
`_pump`: no-op once the main deferred is resolved; record a failure in
`any_failed`; under `stop_on_error` a failure clears the queue; if the
queue head depends on an in-flight rule do nothing (wait for a later
pump); otherwise dequeue and issue it; with an empty queue resolve the
main deferred (callback iff nothing failed — with the synchronous
rules of the scenarios nothing is left in flight at that point).
`_issue_rule`: append to `in_flight_rules`, run `_execute_rule`;
its deferred is already resolved, so the `add_callback_fn` /
`add_errback_fn` registration immediately removes the rule from
`in_flight_rules` (Python `list.remove`: first occurrence) and pumps
with the outcome. -/
def pumpGo (proj : Project) (behaviors : String → Bool) :
    Nat → ExecState → PumpCall → Except ExecErr ExecState
  | 0, _, _ => .error .stackOverflow
  | fuel+1, st, .pump prev =>
    if st.mainDone.isSome then .ok st
    else
      let st := if !prev then { st with anyFailed := true } else st
      let st :=
        if !prev && st.stopOnError then { st with remaining := [] } else st
      match st.remaining with
      | next :: rest => do
        let blocked ← anyInFlightDep st.graph next st.inFlight
        if blocked then .ok st
        else
          pumpGo proj behaviors fuel { st with remaining := rest }
            (.issue next)
      | [] =>
        .ok { st with mainDone := some (!st.anyFailed) }
  | fuel+1, st, .issue rule => do
    let st1 := { st with inFlight := st.inFlight ++ [rule] }
    let (st2, ok) ← executeRule proj behaviors st1 rule
    let st3 := { st2 with inFlight := st2.inFlight.erase rule }
    pumpGo proj behaviors fuel st3 (.pump ok)

/-- Target validation in `execute_async`: each target rule must resolve
in the project (`KeyError` otherwise). -/
def checkTargets (proj : Project) : List String → Except ExecErr Unit
  | [] => .ok ()
  | t :: rest =>
    match resolveRule proj t with
    | none => .error (.keyError t)
    | some _ => checkTargets proj rest

/-- The kick-off loop of `execute_async`: one `_pump()` per rule of the
sequence. -/
def seedPumps (proj : Project) (behaviors : String → Bool) (fuel : Nat) :
    ExecState → List GRule → Except ExecErr ExecState
  | st, [] => .ok st
  | st, _ :: rest => do
    let st1 ← pumpGo proj behaviors fuel st (.pump true)
    seedPumps proj behaviors fuel st1 rest

/-- `BuildContext.execute_async`: validate the target names, check each
resolves, calculate the rule sequence (building the rule graph), then
kick the pump once per rule of the sequence and return — the final
state carries the main deferred's resolution. -/
def executeAsync (proj : Project) (behaviors : String → Bool)
    (stopOnError : Bool) (fuel : Nat) (targets : List String) :
    Except ExecErr ExecState := do
  (match validateNames targets true with
   | .ok _ => Except.ok ()
   | .error e => Except.error (ExecErr.nameErr e))
  checkTargets proj targets
  let (g', seq) ←
    (match calculateRuleSequence proj fuel RuleGraph.empty targets with
     | .ok r => Except.ok r
     | .error e => Except.error (ExecErr.graphErr e))
  let st0 : ExecState :=
    { stopOnError := stopOnError, graph := g', ruleContexts := [],
      remaining := seq, inFlight := [], anyFailed := false,
      mainDone := none }
  seedPumps proj behaviors fuel st0 seq

/-- `BuildContext.get_rule_results`: resolve the rule, then report its
context's status and output files, or `(WAITING, [])` when it has no
context in this build. -/
def getRuleResults (proj : Project) (st : ExecState) (rulePath : String) :
    Except ExecErr (Status × List String) :=
  match resolveRule proj rulePath with
  | none => .error .attrNone
  | some rule =>
    match st.ruleContexts.find? (fun pc => pc.1 = rule.path) with
    | some pc => .ok (pc.2.status, pc.2.allOutputFiles)
    | none => .ok (.waiting, [])



/-! ## C3, C4, C5: pump-loop behavior -/

/-- A project with one rule and no dependencies. -/
def singleRuleProject : Project := [⟨"m:a", []⟩]

/-- The spec's failure scenario: `A` with no dependencies, `B` depending
on `A`. -/
def projAB : Project := [⟨"m:A", []⟩, ⟨"m:B", ["m:A"]⟩]

/-- Behaviors where rule `A` fails and every other rule succeeds. -/
def behFailA : String → Bool := fun p => p ≠ "m:A"

/-- C3 (code bug): `execute_async` kicks the pump once per rule of the
sequence, so with an empty (perfectly valid) target list the pump never
runs and the returned deferred is left pending forever even though the
queue is empty and nothing is in flight — `execute_sync` would then die
on its `assert result[0] is not None`.  With any non-empty valid target
list the drained queue does resolve the deferred (callback here, as
nothing failed). -/
theorem execute_async_empty_targets_pending :
    (∃ st, executeAsync singleRuleProject (fun _ => true) false 10 [] =
        .ok st ∧
      st.remaining = [] ∧ st.inFlight = [] ∧ st.mainDone = none) ∧
    (∃ st, executeAsync singleRuleProject (fun _ => true) false 10
        ["m:a"] = .ok st ∧
      st.mainDone = some true ∧
      lookupCtx st "m:a" = some ⟨.succeeded, true, []⟩) := by
  exact ⟨⟨_, rfl, rfl, rfl, rfl⟩, ⟨_, rfl, rfl, rfl⟩⟩

theorem checkPredecessorFailures_finds_failure (proj : Project)
    (ctxs : List (String × RuleCtx)) (deps : List String)
    (hres : ∀ d ∈ deps, ∃ dr, resolveRule proj d = some dr ∧
      ∃ pc, ctxs.find? (fun pc => pc.1 = dr.path) = some pc)
    (hfail : ∃ d ∈ deps, ∃ dr pc, resolveRule proj d = some dr ∧
      ctxs.find? (fun pc => pc.1 = dr.path) = some pc ∧
      pc.2.status = .failed) :
    checkPredecessorFailures proj ctxs deps = .ok true := by
  induction deps with
  | nil =>
    obtain ⟨d, hd, -⟩ := hfail
    exact absurd hd (List.not_mem_nil d)
  | cons d0 rest ih =>
    obtain ⟨dr0, hdr0, pc0, hpc0⟩ := hres d0 (List.mem_cons_self d0 rest)
    by_cases hst : pc0.2.status = .failed
    · simp [checkPredecessorFailures, hdr0, hpc0, hst]
    · have hfail' : ∃ d ∈ rest, ∃ dr pc, resolveRule proj d = some dr ∧
          ctxs.find? (fun pc => pc.1 = dr.path) = some pc ∧
          pc.2.status = .failed := by
        obtain ⟨d, hd, dr, pc, h1, h2, h3⟩ := hfail
        rcases List.mem_cons.mp hd with hd0 | hdr
        · subst hd0
          rw [hdr0] at h1
          obtain rfl := Option.some_inj.mp h1
          rw [hpc0] at h2
          obtain rfl := Option.some_inj.mp h2
          exact absurd h3 hst
        · exact ⟨d, hdr, dr, pc, h1, h2, h3⟩
      have ihh := ih (fun d hd => hres d (List.mem_cons_of_mem d0 hd)) hfail'
      simp [checkPredecessorFailures, hdr0, hpc0, hst, ihh]

theorem lookupCtx_setCtx_self (l : List (String × RuleCtx)) (p : String)
    (c : RuleCtx) (h : ((setCtx l p c).find? (fun pc => pc.1 = p)).isSome) :
    ((setCtx l p c).find? (fun pc => pc.1 = p)).map Prod.snd = some c := by
  induction l with
  | nil => simp [setCtx] at h
  | cons pc0 rest ih =>
    by_cases h0 : pc0.1 = p
    · simp [setCtx, List.find?_cons, h0]
    · simp only [setCtx, List.map_cons, if_neg h0] at h ⊢
      rw [List.find?_cons] at h ⊢
      simp only [h0, decide_False] at h ⊢
      exact ih (by simpa [setCtx] using h)

/-- C4: cascading failure.  Whenever a rule `B` declaring a dependency
on `A` is about to be launched (has no context yet, all its
dependencies have contexts) while `A`'s context is `FAILED`,
`_execute_rule` makes `B`'s context end `FAILED` with `begin()` never
invoked and errbacks its deferred; and on the spec's concrete two-rule
run the overall run deferred resolves as failure. -/
theorem cascade_failure_semantics
    (proj : Project) (behaviors : String → Bool) (st : ExecState)
    (B : GRule) (aPath : String) (rA : GRule) (ctxA : RuleCtx)
    (hdep : aPath ∈ B.ruleDeps)
    (hres : ∀ d ∈ B.ruleDeps, ∃ dr, resolveRule proj d = some dr ∧
      ∃ c, lookupCtx st dr.path = some c)
    (hA : resolveRule proj aPath = some rA)
    (hActx : lookupCtx st rA.path = some ctxA)
    (hAfail : ctxA.status = .failed)
    (hBnew : lookupCtx st B.path = none) :
    (∃ st', executeRule proj behaviors st B = .ok (st', false) ∧
      lookupCtx st' B.path = some ⟨.failed, false, []⟩) ∧
    (∃ stR, executeAsync projAB behFailA false 10 ["m:B"] = .ok stR ∧
      lookupCtx stR "m:B" = some ⟨.failed, false, []⟩ ∧
      lookupCtx stR "m:A" = some ⟨.failed, true, []⟩ ∧
      stR.mainDone = some false) := by
  constructor
  · have hBfind : st.ruleContexts.find? (fun pc => pc.1 = B.path) = none := by
      unfold lookupCtx at hBnew
      exact Option.map_eq_none'.mp hBnew
    have hext : ∀ q, (st.ruleContexts.find? (fun pc => pc.1 = q)).isSome →
        (st.ruleContexts ++ [(B.path, (⟨.waiting, false, []⟩ : RuleCtx))]).find?
          (fun pc => pc.1 = q) = st.ruleContexts.find? (fun pc => pc.1 = q) := by
      intro q hq
      rw [List.find?_append]
      cases hfq : st.ruleContexts.find? (fun pc => pc.1 = q) with
      | none => rw [hfq] at hq; simp at hq
      | some x => rfl
    have hcheck : checkPredecessorFailures proj
        (st.ruleContexts ++ [(B.path, ⟨.waiting, false, []⟩)]) B.ruleDeps =
        .ok true := by
      apply checkPredecessorFailures_finds_failure
      · intro d hd
        obtain ⟨dr, hdr, c, hc⟩ := hres d hd
        refine ⟨dr, hdr, ?_⟩
        unfold lookupCtx at hc
        cases hfq : st.ruleContexts.find? (fun pc => pc.1 = dr.path) with
        | none => rw [hfq] at hc; simp at hc
        | some pc =>
          refine ⟨pc, ?_⟩
          rw [hext dr.path (by rw [hfq]; rfl), hfq]
      · unfold lookupCtx at hActx
        cases hfq : st.ruleContexts.find? (fun pc => pc.1 = rA.path) with
        | none => rw [hfq] at hActx; simp at hActx
        | some pc =>
          refine ⟨aPath, hdep, rA, pc, hA, ?_, ?_⟩
          · rw [hext rA.path (by rw [hfq]; rfl), hfq]
          · rw [hfq] at hActx
            have hpc2 : pc.2 = ctxA := by
              simpa using hActx
            rw [hpc2]
            exact hAfail
    refine ⟨{ st with ruleContexts := setCtx (st.ruleContexts ++ [(B.path, ⟨.waiting, false, []⟩)]) B.path ⟨.failed, false, []⟩ }, ?_, ?_⟩
    · unfold executeRule
      rw [hBfind]
      simp only [Option.isSome_none, Bool.false_eq_true, if_false]
      rw [hcheck]
      rfl
    · apply lookupCtx_setCtx_self
      have hmem : ((B.path, (⟨.waiting, false, []⟩ : RuleCtx))) ∈
          st.ruleContexts ++ [(B.path, ⟨.waiting, false, []⟩)] := by
        simp
      rw [List.find?_isSome]
      refine ⟨(B.path, ⟨.failed, false, []⟩), ?_, by simp⟩
      have : ((B.path, (⟨.waiting, false, []⟩ : RuleCtx)) ∈
          st.ruleContexts ++ [(B.path, ⟨.waiting, false, []⟩)]) := by simp
      unfold setCtx
      rw [List.mem_map]
      exact ⟨(B.path, ⟨.waiting, false, []⟩), this, by simp⟩
  · exact ⟨_, rfl, rfl, rfl, rfl⟩

/-- The launch state for the `cascade_failure_semantics` witness: rule
`A` has already executed and failed; `B` is about to be launched. -/
def cascadeWitState : ExecState :=
  { stopOnError := false, graph := RuleGraph.empty,
    ruleContexts := [("m:A", ⟨.failed, true, []⟩)], remaining := [],
    inFlight := [], anyFailed := true, mainDone := none }

/-- Witness for `cascade_failure_semantics` at the two-rule scenario. -/
theorem cascade_failure_semantics_witness :
    ("m:A" ∈ (⟨"m:B", ["m:A"]⟩ : GRule).ruleDeps ∧
      resolveRule projAB "m:A" = some ⟨"m:A", []⟩ ∧
      lookupCtx cascadeWitState "m:A" = some ⟨.failed, true, []⟩ ∧
      lookupCtx cascadeWitState "m:B" = none) ∧
    (∃ st', executeRule projAB behFailA cascadeWitState ⟨"m:B", ["m:A"]⟩ =
        .ok (st', false) ∧
      lookupCtx st' "m:B" = some ⟨.failed, false, []⟩) := by
  refine ⟨⟨by decide, rfl, rfl, rfl⟩, ?_⟩
  exact (cascade_failure_semantics projAB behFailA cascadeWitState
    ⟨"m:B", ["m:A"]⟩ "m:A" ⟨"m:A", []⟩ ⟨.failed, true, []⟩ (by decide)
    (by
      intro d hd
      rw [show (⟨"m:B", ["m:A"]⟩ : GRule).ruleDeps = ["m:A"] from rfl] at hd
      obtain rfl := List.mem_singleton.mp hd
      exact ⟨⟨"m:A", []⟩, rfl, ⟨.failed, true, []⟩, rfl⟩)
    rfl rfl rfl rfl).1

/-- C5: stop-on-error.  A pump step reporting a failure under
`stop_on_error` (with the run not yet resolved) clears the whole queue,
launches nothing further (the contexts map and the in-flight list are
untouched: in-flight rules are left to finish) and resolves the run
deferred as failure.  On the spec's concrete two-rule scenario `A` ends
`FAILED`, `B` is never attempted — `get_rule_results` reports
`(WAITING, [])` — and the run resolves as failure. -/
theorem stop_on_error_semantics
    (proj : Project) (behaviors : String → Bool) (fuel : Nat)
    (st : ExecState) (hpend : st.mainDone = none)
    (hstop : st.stopOnError = true) :
    (pumpGo proj behaviors (fuel+1) st (.pump false) =
      .ok { st with anyFailed := true, remaining := [],
                    mainDone := some false }) ∧
    (∃ stR, executeAsync projAB behFailA true 10 ["m:B"] = .ok stR ∧
      lookupCtx stR "m:A" = some ⟨.failed, true, []⟩ ∧
      lookupCtx stR "m:B" = none ∧
      getRuleResults projAB stR "m:B" = .ok (.waiting, []) ∧
      stR.remaining = [] ∧
      stR.mainDone = some false) := by
  constructor
  · simp [pumpGo, hpend, hstop]
  · exact ⟨_, rfl, rfl, rfl, rfl, rfl, rfl⟩

/-- An unresolved stop-on-error state for the `stop_on_error_semantics`
witness. -/
def stopWitState : ExecState :=
  { stopOnError := true, graph := RuleGraph.empty,
    ruleContexts := [("m:A", ⟨.failed, true, []⟩)],
    remaining := [⟨"m:B", ["m:A"]⟩], inFlight := [], anyFailed := false,
    mainDone := none }

/-- Witness for `stop_on_error_semantics`. -/
theorem stop_on_error_semantics_witness :
    (stopWitState.mainDone = none ∧ stopWitState.stopOnError = true) ∧
    pumpGo projAB behFailA 5 stopWitState (.pump false) =
      .ok { stopWitState with anyFailed := true, remaining := [],
                              mainDone := some false } :=
  ⟨⟨rfl, rfl⟩,
    (stop_on_error_semantics projAB behFailA 4 stopWitState rfl rfl).1⟩



/-! ## C10: `get_rule_results` returns a fresh copy

Python lists are mutable heap objects; to state the aliasing claim the
output lists are modelled through an explicit store of list cells,
`all_output_files` being a reference into it. -/

/-- A store of Python list objects; a reference is an index. -/
structure ListStore where
  cells : List (List String)
  deriving Repr, DecidableEq

/-- Dereference (total: reads of invalid references yield `[]`, which
the theorems never rely on). -/
def ListStore.read (s : ListStore) (ref : Nat) : List String :=
  s.cells.getD ref []

/-- Allocate a fresh list object with the given contents. -/
def ListStore.alloc (s : ListStore) (contents : List String) :
    ListStore × Nat :=
  (⟨s.cells ++ [contents]⟩, s.cells.length)

/-- In-place mutation of the list object behind `ref`. -/
def ListStore.write (s : ListStore) (ref : Nat) (contents : List String) :
    ListStore :=
  ⟨s.cells.set ref contents⟩

/-- A rule context as seen by `get_rule_results`: its status and the
reference to its `all_output_files` list. -/
structure RuleCtxRef where
  status : Status
  allOutputFiles : Nat
  deriving Repr, DecidableEq

/-- `BuildContext.get_rule_results` with list identity explicit: when
the rule has a context, return its status together with a reference to
a fresh copy (`all_output_files[:]`) of its output list; otherwise
`(WAITING, [])` with a fresh empty list. -/
def getRuleResultsRef (ctxs : List (String × RuleCtxRef))
    (store : ListStore) (rulePath : String) :
    (Status × Nat) × ListStore :=
  match ctxs.find? (fun pc => pc.1 = rulePath) with
  | some pc =>
    let (store', r) := store.alloc (store.read pc.2.allOutputFiles)
    ((pc.2.status, r), store')
  | none =>
    let (store', r) := store.alloc []
    ((.waiting, r), store')

/-- C10: for a rule with an execution context, `get_rule_results`
returns the context's status and a *fresh copy* of its output list: the
returned reference differs from the context's `all_output_files`
reference, its contents equal the context's list, and mutating the
returned list afterwards leaves the context's list — and every other
pre-existing list in the build context — unchanged. -/
theorem get_rule_results_fresh_copy (ctxs : List (String × RuleCtxRef))
    (store : ListStore) (rulePath : String) (pc : String × RuleCtxRef)
    (hfind : ctxs.find? (fun pc => pc.1 = rulePath) = some pc)
    (hvalid : pc.2.allOutputFiles < store.cells.length) :
    ∃ r store',
      getRuleResultsRef ctxs store rulePath =
        ((pc.2.status, r), store') ∧
      r ≠ pc.2.allOutputFiles ∧
      store'.read r = store.read pc.2.allOutputFiles ∧
      (∀ contents,
        (store'.write r contents).read pc.2.allOutputFiles =
          store.read pc.2.allOutputFiles) ∧
      (∀ contents q, q ≠ r →
        (store'.write r contents).read q = store.read q) := by
  refine ⟨store.cells.length, ⟨store.cells ++ [store.read pc.2.allOutputFiles]⟩,
    ?_, ?_, ?_, ?_, ?_⟩
  · unfold getRuleResultsRef
    rw [hfind]
    rfl
  · omega
  · unfold ListStore.read
    rw [List.getD_eq_getElem?_getD, List.getElem?_append_right (le_refl _)]
    simp
  · intro contents
    unfold ListStore.write ListStore.read
    rw [List.getD_eq_getElem?_getD, List.getElem?_set_ne (by omega)]
    rw [List.getElem?_append_left hvalid]
    rw [List.getD_eq_getElem?_getD]
  · intro contents q hq
    unfold ListStore.write ListStore.read
    rw [List.getD_eq_getElem?_getD, List.getElem?_set_ne (Ne.symm hq)]
    by_cases hlt : q < store.cells.length
    · rw [List.getElem?_append_left hlt, List.getD_eq_getElem?_getD]
    · have hge : store.cells.length ≤ q := Nat.le_of_not_lt hlt
      have h1 : (store.cells ++ [store.cells.getD pc.2.allOutputFiles []])[q]? =
          none :=
        List.getElem?_eq_none (by
          simp only [List.length_append, List.length_singleton]
          omega)
      have h2 : store.cells[q]? = none := List.getElem?_eq_none hge
      show (store.cells ++ [store.cells.getD pc.2.allOutputFiles []])[q]?.getD [] =
        store.cells.getD q []
      rw [h1, List.getD_eq_getElem?_getD, h2]

/-- Witness for `get_rule_results_fresh_copy` at a concrete build
context. -/
theorem get_rule_results_fresh_copy_witness :
    ([("m:a", (⟨Status.succeeded, 0⟩ : RuleCtxRef))].find?
        (fun pc => pc.1 = "m:a") = some ("m:a", ⟨Status.succeeded, 0⟩) ∧
      (0 : Nat) < 1) ∧
    ∃ r store',
      getRuleResultsRef [("m:a", ⟨Status.succeeded, 0⟩)]
          ⟨[["x.txt"]]⟩ "m:a" = ((Status.succeeded, r), store') ∧
      r ≠ 0 ∧
      store'.read r = ListStore.read ⟨[["x.txt"]]⟩ 0 ∧
      (∀ contents, (store'.write r contents).read 0 =
        ListStore.read ⟨[["x.txt"]]⟩ 0) ∧
      (∀ contents q, q ≠ r →
        (store'.write r contents).read q = ListStore.read ⟨[["x.txt"]]⟩ q) :=
  ⟨⟨rfl, by decide⟩,
    get_rule_results_fresh_copy [("m:a", ⟨Status.succeeded, 0⟩)]
      ⟨[["x.txt"]]⟩ "m:a" ("m:a", ⟨Status.succeeded, 0⟩) rfl (by decide)⟩



/-! ## C1: correctness of `calculate_rule_sequence`

The development works at the level of rule paths.  `depRelP proj a b`
says the path `a` is a resolvable rule-path dependency of (the rule
resolved by) `b`; the claim's "transitively depends on" is its
transitive closure. -/

/-- The node key set of the rule graph, in insertion order. -/
def gNodes (g : RuleGraph) : List String := g.ruleNodes.map Prod.fst

/-- `a` is a (resolvable) rule-path dependency of `b` in the project. -/
def depRelP (proj : Project) (a b : String) : Prop :=
  (∃ ra, resolveRule proj a = some ra) ∧
  ∃ rb, resolveRule proj b = some rb ∧ a ∈ rb.ruleDeps

/-- Every rule-path dependency of `r` resolves and has a node. -/
def DepsPresent (proj : Project) (g : RuleGraph) (r : GRule) : Prop :=
  ∀ d ∈ r.ruleDeps, (∃ dr, resolveRule proj d = some dr) ∧ d ∈ gNodes g

/-- Every rule-path dependency of `r` resolves, has a node, and its
dependency→dependent edge is in the graph. -/
def DepsDone (proj : Project) (g : RuleGraph) (r : GRule) : Prop :=
  ∀ d ∈ r.ruleDeps, (∃ dr, resolveRule proj d = some dr) ∧ d ∈ gNodes g ∧
    (d, r.path) ∈ g.edges

/-- Soundness invariant of a rule graph: every stored node is the
canonical resolution of its key, and every edge joins node keys along
an actual rule-path dependency of the dependent's stored rule. -/
structure GraphInv (proj : Project) (g : RuleGraph) : Prop where
  nodesOK : ∀ pr ∈ g.ruleNodes, resolveRule proj pr.1 = some pr.2
  edgesOK : ∀ e ∈ g.edges, e.1 ∈ gNodes g ∧
    ∃ prb ∈ g.ruleNodes, prb.1 = e.2 ∧ e.1 ∈ prb.2.ruleDeps

/-- Number of project rule paths not yet in the graph (the measure of
the `_ensure_rules_present` recursion). -/
def newCard (proj : Project) (g : RuleGraph) : Nat :=
  ((proj.map (fun r => r.path)).toFinset \ (gNodes g).toFinset).card

theorem resolveRule_path {proj : Project} {p : String} {r : GRule}
    (h : resolveRule proj p = some r) : r.path = p := by
  have := List.find?_some h
  simpa using this

theorem resolveRule_mem {proj : Project} {p : String} {r : GRule}
    (h : resolveRule proj p = some r) : r ∈ proj :=
  List.mem_of_find?_eq_some h

theorem node?_isSome_iff {g : RuleGraph} {p : String} :
    (g.node? p).isSome ↔ p ∈ gNodes g := by
  unfold RuleGraph.node? gNodes
  rw [List.find?_isSome]
  constructor
  · rintro ⟨pr, hpr, hp⟩
    simp only [decide_eq_true_eq] at hp
    exact List.mem_map.mpr ⟨pr, hpr, hp⟩
  · rintro hmem
    obtain ⟨pr, hpr, hp⟩ := List.mem_map.mp hmem
    exact ⟨pr, hpr, by simp [hp]⟩

theorem node?_value {proj : Project} {g : RuleGraph} (inv : GraphInv proj g)
    {p : String} {pr : String × GRule} (h : g.node? p = some pr) :
    pr.1 = p ∧ resolveRule proj p = some pr.2 := by
  have h1 : pr.1 = p := by
    have := List.find?_some h
    simpa using this
  have h2 := inv.nodesOK pr (List.mem_of_find?_eq_some h)
  rw [h1] at h2
  exact ⟨h1, h2⟩

theorem gNodes_addNode (g : RuleGraph) (r : GRule) :
    gNodes (g.addNode r) = gNodes g ++ [r.path] := by
  unfold gNodes RuleGraph.addNode
  simp

theorem addEdge_ruleNodes (g : RuleGraph) (a b : String) :
    (g.addEdge a b).ruleNodes = g.ruleNodes := by
  unfold RuleGraph.addEdge
  by_cases h : (a, b) ∈ g.edges <;> simp [h]

theorem addEdge_edges_mem (g : RuleGraph) (a b : String) (e : String × String) :
    e ∈ (g.addEdge a b).edges ↔ e ∈ g.edges ∨ e = (a, b) := by
  unfold RuleGraph.addEdge
  by_cases h : (a, b) ∈ g.edges
  · simp only [if_pos h]
    constructor
    · exact Or.inl
    · rintro (h1 | rfl)
      · exact h1
      · exact h
  · simp [if_neg h]

theorem addEdge_edges_ext (g : RuleGraph) (a b : String) :
    ∃ ext, (g.addEdge a b).edges = g.edges ++ ext := by
  unfold RuleGraph.addEdge
  by_cases h : (a, b) ∈ g.edges
  · exact ⟨[], by simp [h]⟩
  · exact ⟨[(a, b)], by simp [h]⟩

/-- Graph extension: nodes and edges only ever grow by appending. -/
def Extends (g g' : RuleGraph) : Prop :=
  (∃ next, g'.ruleNodes = g.ruleNodes ++ next) ∧
  (∃ eext, g'.edges = g.edges ++ eext)

theorem Extends.refl (g : RuleGraph) : Extends g g :=
  ⟨⟨[], by simp⟩, ⟨[], by simp⟩⟩

theorem Extends.trans {g1 g2 g3 : RuleGraph} (h12 : Extends g1 g2)
    (h23 : Extends g2 g3) : Extends g1 g3 := by
  obtain ⟨⟨n1, hn1⟩, ⟨e1, he1⟩⟩ := h12
  obtain ⟨⟨n2, hn2⟩, ⟨e2, he2⟩⟩ := h23
  exact ⟨⟨n1 ++ n2, by rw [hn2, hn1, List.append_assoc]⟩,
    ⟨e1 ++ e2, by rw [he2, he1, List.append_assoc]⟩⟩

theorem Extends.nodes_subset {g g' : RuleGraph} (h : Extends g g') :
    ∀ p ∈ gNodes g, p ∈ gNodes g' := by
  obtain ⟨⟨next, hn⟩, -⟩ := h
  intro p hp
  unfold gNodes at hp ⊢
  rw [hn, List.map_append]
  exact List.mem_append_left _ hp

theorem Extends.ruleNodes_subset {g g' : RuleGraph} (h : Extends g g') :
    ∀ pr ∈ g.ruleNodes, pr ∈ g'.ruleNodes := by
  obtain ⟨⟨next, hn⟩, -⟩ := h
  intro pr hpr
  rw [hn]
  exact List.mem_append_left _ hpr

theorem Extends.edges_subset {g g' : RuleGraph} (h : Extends g g') :
    ∀ e ∈ g.edges, e ∈ g'.edges := by
  obtain ⟨-, ⟨eext, he⟩⟩ := h
  intro e hee
  rw [he]
  exact List.mem_append_left _ hee

theorem DepsPresent.mono {proj : Project} {g g' : RuleGraph} {r : GRule}
    (h : DepsPresent proj g r) (hx : Extends g g') :
    DepsPresent proj g' r := by
  intro d hd
  obtain ⟨h1, h2⟩ := h d hd
  exact ⟨h1, hx.nodes_subset d h2⟩

theorem DepsDone.mono_d {proj : Project} {g g' : RuleGraph} {r : GRule}
    (h : DepsDone proj g r) (hx : Extends g g') :
    DepsDone proj g' r := by
  intro d hd
  obtain ⟨h1, h2, h3⟩ := h d hd
  exact ⟨h1, hx.nodes_subset d h2, hx.edges_subset _ h3⟩

theorem newCard_le_of_extends {proj : Project} {g g' : RuleGraph}
    (h : Extends g g') : newCard proj g' ≤ newCard proj g := by
  unfold newCard
  apply Finset.card_le_card
  intro p hp
  rw [Finset.mem_sdiff] at hp ⊢
  refine ⟨hp.1, fun hmem => hp.2 ?_⟩
  rw [List.mem_toFinset] at hmem ⊢
  exact h.nodes_subset p hmem

theorem newCard_addNode_lt {proj : Project} {g : RuleGraph} {r : GRule}
    (hmem : r ∈ proj) (hnew : r.path ∉ gNodes g) :
    newCard proj (g.addNode r) < newCard proj g := by
  unfold newCard
  apply Finset.card_lt_card
  have hsub : ((proj.map (fun r => r.path)).toFinset \ (gNodes (g.addNode r)).toFinset) ⊆
      ((proj.map (fun r => r.path)).toFinset \ (gNodes g).toFinset) := by
    intro p hp
    rw [Finset.mem_sdiff, List.mem_toFinset] at hp ⊢
    refine ⟨hp.1, fun hmem2 => hp.2 ?_⟩
    rw [List.mem_toFinset] at hmem2 ⊢
    rw [gNodes_addNode]
    exact List.mem_append_left _ hmem2
  rw [Finset.ssubset_iff_of_subset hsub]
  refine ⟨r.path, ?_, ?_⟩
  · rw [Finset.mem_sdiff, List.mem_toFinset, List.mem_toFinset]
    exact ⟨List.mem_map.mpr ⟨r, hmem, rfl⟩, hnew⟩
  · rw [Finset.mem_sdiff, List.mem_toFinset, List.mem_toFinset,
      gNodes_addNode]
    rintro ⟨-, hno⟩
    exact hno (List.mem_append_right _ (by simp))



theorem reachN_sound {es : List (String × String)} :
    ∀ (n : Nat) (a b : String), reachN es n a b = true →
      Relation.ReflTransGen (fun x y => (x, y) ∈ es) a b := by
  intro n
  induction n with
  | zero =>
    intro a b h
    have : a = b := by simpa [reachN] using h
    exact this ▸ Relation.ReflTransGen.refl
  | succ n ih =>
    intro a b h
    simp only [reachN, Bool.or_eq_true, decide_eq_true_eq,
      List.any_eq_true, Bool.and_eq_true] at h
    rcases h with rfl | ⟨e, he, h1, h2⟩
    · exact Relation.ReflTransGen.refl
    · have h1' : e.1 = a := by simpa using h1
      refine Relation.ReflTransGen.head ?_ (ih e.2 b h2)
      rw [← h1']
      exact he

theorem edge_to_depRelP {proj : Project} {g : RuleGraph}
    (inv : GraphInv proj g) {a b : String} (h : (a, b) ∈ g.edges) :
    depRelP proj a b := by
  obtain ⟨ha, prb, hprb, hkey, hdep⟩ := inv.edgesOK (a, b) h
  obtain ⟨pra, hpra, hpkey⟩ := List.mem_map.mp ha
  have hpkey' : pra.1 = a := hpkey
  have hkey' : prb.1 = b := hkey
  have hdep' : a ∈ prb.2.ruleDeps := hdep
  constructor
  · exact ⟨pra.2, by rw [← hpkey']; exact inv.nodesOK pra hpra⟩
  · refine ⟨prb.2, ?_, hdep'⟩
    rw [← hkey']
    exact inv.nodesOK prb hprb

theorem no_edge_cycle {proj : Project} {g : RuleGraph}
    (inv : GraphInv proj g)
    (HA : ∀ p, ¬ Relation.TransGen (depRelP proj) p p) :
    ∀ v, ¬ Relation.TransGen (fun x y => (x, y) ∈ g.edges) v v := by
  intro v hcyc
  exact HA v (Relation.TransGen.mono
    (fun x y hxy => edge_to_depRelP inv hxy) hcyc)

theorem isDAG_of_inv {proj : Project} {g : RuleGraph}
    (inv : GraphInv proj g)
    (HA : ∀ p, ¬ Relation.TransGen (depRelP proj) p p) :
    g.isDAG = true := by
  unfold RuleGraph.isDAG
  rw [List.all_eq_true]
  intro v hv
  rw [Bool.not_eq_true']
  rw [List.any_eq_false]
  intro e he
  rw [Bool.not_eq_true]
  by_cases h1 : e.1 = v
  · have h2 : reachN g.edges g.ruleNodes.length e.2 v = false := by
      rw [Bool.eq_false_iff]
      intro h2
      have hpath := reachN_sound g.ruleNodes.length e.2 v h2
      have hstep : (fun x y => (x, y) ∈ g.edges) v e.2 := by
        show (v, e.2) ∈ g.edges
        have he2 : e = (v, e.2) := by
          rw [← h1]
        rw [← he2]
        exact he
      exact no_edge_cycle inv HA v (Relation.TransGen.head' hstep hpath)
    simp [h2]
  · simp [h1]

theorem ensureGo_present_unfold (proj : Project) (fuel : Nat)
    (g : RuleGraph) (paths : List String) :
    ensureGo proj (fuel+1) (.present g paths) = (do
      let (g1, rules) ← ensureGo proj fuel (.scan g paths)
      let g2 ← addRulesEdges proj g1 rules
      if g2.isDAG then .ok (g2, rules) else .error .cycleError) := rfl

theorem ensureGo_scan_nil (proj : Project) (fuel : Nat) (g : RuleGraph) :
    ensureGo proj (fuel+1) (.scan g []) = .ok (g, []) := rfl

theorem ensureGo_scan_cons_none (proj : Project) (fuel : Nat)
    (g : RuleGraph) (p : String) (rest : List String)
    (h : resolveRule proj p = none) :
    ensureGo proj (fuel+1) (.scan g (p :: rest)) =
      .error (.keyError p) := by
  simp [ensureGo, h]

theorem ensureGo_scan_cons_hit (proj : Project) (fuel : Nat)
    (g : RuleGraph) (p : String) (rest : List String) (rule : GRule)
    (h : resolveRule proj p = some rule)
    (hmem : (g.node? rule.path).isSome = true) :
    ensureGo proj (fuel+1) (.scan g (p :: rest)) = (do
      let (g2, rules) ← ensureGo proj fuel (.scan g rest)
      .ok (g2, rule :: rules)) := by
  simp [ensureGo, h, hmem]

theorem ensureGo_scan_cons_nodeps (proj : Project) (fuel : Nat)
    (g : RuleGraph) (p : String) (rest : List String) (rule : GRule)
    (h : resolveRule proj p = some rule)
    (hmem : (g.node? rule.path).isSome = false)
    (hdeps : rule.ruleDeps.isEmpty = true) :
    ensureGo proj (fuel+1) (.scan g (p :: rest)) = (do
      let (g2, rules) ← ensureGo proj fuel (.scan (g.addNode rule) rest)
      .ok (g2, rule :: rules)) := by
  simp [ensureGo, h, hmem, hdeps]

theorem ensureGo_scan_cons_deps (proj : Project) (fuel : Nat)
    (g : RuleGraph) (p : String) (rest : List String) (rule : GRule)
    (h : resolveRule proj p = some rule)
    (hmem : (g.node? rule.path).isSome = false)
    (hdeps : rule.ruleDeps.isEmpty = false) :
    ensureGo proj (fuel+1) (.scan g (p :: rest)) = (do
      let (g15, _) ← ensureGo proj fuel (.present (g.addNode rule)
        rule.ruleDeps)
      let (g2, rules) ← ensureGo proj fuel (.scan g15 rest)
      .ok (g2, rule :: rules)) := by
  simp [ensureGo, h, hmem, hdeps]

theorem ensureGo_mono (proj : Project) :
    ∀ fuel fuel' c, fuel ≤ fuel' →
      ensureGo proj fuel c ≠ .error .stackOverflow →
      ensureGo proj fuel' c = ensureGo proj fuel c := by
  intro fuel
  induction fuel with
  | zero =>
    intro fuel' c h hne
    exact absurd rfl hne
  | succ fuel ih =>
    intro fuel' c hle hne
    obtain ⟨fuel2, rfl⟩ : ∃ k, fuel' = k + 1 := ⟨fuel' - 1, by omega⟩
    have hle2 : fuel ≤ fuel2 := by omega
    cases c with
    | present g paths =>
      rw [ensureGo_present_unfold, ensureGo_present_unfold]
      have hsub : ensureGo proj fuel (.scan g paths) ≠
          .error .stackOverflow := by
        intro hso
        apply hne
        rw [ensureGo_present_unfold, hso]
        rfl
      rw [ih fuel2 _ hle2 hsub]
    | scan g paths =>
      cases paths with
      | nil =>
        rw [ensureGo_scan_nil, ensureGo_scan_nil]
      | cons p rest =>
        cases hres : resolveRule proj p with
        | none =>
          rw [ensureGo_scan_cons_none _ _ _ _ _ hres,
            ensureGo_scan_cons_none _ _ _ _ _ hres]
        | some rule =>
          cases hmem : (g.node? rule.path).isSome with
          | true =>
            rw [ensureGo_scan_cons_hit _ _ _ _ _ _ hres hmem,
              ensureGo_scan_cons_hit _ _ _ _ _ _ hres hmem]
            have hsub : ensureGo proj fuel (.scan g rest) ≠
                .error .stackOverflow := by
              intro hso
              apply hne
              rw [ensureGo_scan_cons_hit _ _ _ _ _ _ hres hmem, hso]
              rfl
            rw [ih fuel2 _ hle2 hsub]
          | false =>
            cases hdeps : rule.ruleDeps.isEmpty with
            | true =>
              rw [ensureGo_scan_cons_nodeps _ _ _ _ _ _ hres hmem hdeps,
                ensureGo_scan_cons_nodeps _ _ _ _ _ _ hres hmem hdeps]
              have hsub : ensureGo proj fuel (.scan (g.addNode rule) rest) ≠
                  .error .stackOverflow := by
                intro hso
                apply hne
                rw [ensureGo_scan_cons_nodeps _ _ _ _ _ _ hres hmem hdeps,
                  hso]
                rfl
              rw [ih fuel2 _ hle2 hsub]
            | false =>
              rw [ensureGo_scan_cons_deps _ _ _ _ _ _ hres hmem hdeps,
                ensureGo_scan_cons_deps _ _ _ _ _ _ hres hmem hdeps]
              have hsub1 : ensureGo proj fuel
                  (.present (g.addNode rule) rule.ruleDeps) ≠
                  .error .stackOverflow := by
                intro hso
                apply hne
                rw [ensureGo_scan_cons_deps _ _ _ _ _ _ hres hmem hdeps, hso]
                rfl
              rw [ih fuel2 _ hle2 hsub1]
              cases hval : ensureGo proj fuel
                  (.present (g.addNode rule) rule.ruleDeps) with
              | error e => rfl
              | ok pr =>
                have hsub2 : ensureGo proj fuel (.scan pr.1 rest) ≠
                    .error .stackOverflow := by
                  intro hso
                  apply hne
                  rw [ensureGo_scan_cons_deps _ _ _ _ _ _ hres hmem hdeps,
                    hval]
                  show (do
                    let (g2, rules) ← ensureGo proj fuel (.scan pr.1 rest)
                    Except.ok (g2, rule :: rules)) = _
                  rw [hso]
                  rfl
                show (do
                  let (g2, rules) ← ensureGo proj fuel2 (.scan pr.1 rest)
                  Except.ok (g2, rule :: rules)) = (do
                  let (g2, rules) ← ensureGo proj fuel (.scan pr.1 rest)
                  Except.ok (g2, rule :: rules))
                rw [ih fuel2 _ hle2 hsub2]



theorem addDepEdges_spec (proj : Project) (rulePath : String) :
    ∀ (deps : List String) (g : RuleGraph),
      (∀ d ∈ deps, (∃ dr, resolveRule proj d = some dr) ∧ d ∈ gNodes g) →
      ∃ g', addDepEdges proj g rulePath deps = .ok g' ∧
        g'.ruleNodes = g.ruleNodes ∧
        (∃ eext, g'.edges = g.edges ++ eext) ∧
        (∀ e, e ∈ g'.edges ↔ e ∈ g.edges ∨ ∃ d ∈ deps, e = (d, rulePath)) := by
  intro deps
  induction deps with
  | nil =>
    intro g h
    exact ⟨g, rfl, rfl, ⟨[], by simp⟩, by simp [addDepEdges]⟩
  | cons d rest ih =>
    intro g h
    obtain ⟨⟨dr, hdr⟩, hmem⟩ := h d (List.mem_cons_self d rest)
    have hdrp : dr.path = d := resolveRule_path hdr
    have hnode : (g.node? dr.path).isSome = true := by
      rw [hdrp]
      exact node?_isSome_iff.mpr hmem
    have hrest : ∀ d' ∈ rest, (∃ dr', resolveRule proj d' = some dr') ∧
        d' ∈ gNodes (g.addEdge dr.path rulePath) := by
      intro d' hd'
      obtain ⟨h1, h2⟩ := h d' (List.mem_cons_of_mem d hd')
      refine ⟨h1, ?_⟩
      unfold gNodes
      rw [addEdge_ruleNodes]
      exact h2
    obtain ⟨g', hok, hnodes, ⟨eext, hext⟩, hchar⟩ :=
      ih (g.addEdge dr.path rulePath) hrest
    refine ⟨g', ?_, ?_, ?_, ?_⟩
    · unfold addDepEdges
      rw [hdr]
      simp only [hnode, if_true]
      exact hok
    · rw [hnodes, addEdge_ruleNodes]
    · obtain ⟨eext2, hext2⟩ := addEdge_edges_ext g dr.path rulePath
      exact ⟨eext2 ++ eext, by rw [hext, hext2, List.append_assoc]⟩
    · intro e
      rw [hchar e, addEdge_edges_mem, hdrp]
      constructor
      · rintro ((h1 | rfl) | ⟨d', hd', rfl⟩)
        · exact Or.inl h1
        · exact Or.inr ⟨d, List.mem_cons_self d rest, rfl⟩
        · exact Or.inr ⟨d', List.mem_cons_of_mem d hd', rfl⟩
      · rintro (h1 | ⟨d', hd', rfl⟩)
        · exact Or.inl (Or.inl h1)
        · rcases List.mem_cons.mp hd' with rfl | hd2
          · exact Or.inl (Or.inr rfl)
          · exact Or.inr ⟨d', hd2, rfl⟩

theorem addRulesEdges_spec (proj : Project) :
    ∀ (rules : List GRule) (g : RuleGraph),
      (∀ r ∈ rules, DepsPresent proj g r) →
      ∃ g', addRulesEdges proj g rules = .ok g' ∧
        g'.ruleNodes = g.ruleNodes ∧
        (∃ eext, g'.edges = g.edges ++ eext) ∧
        (∀ e, e ∈ g'.edges ↔ e ∈ g.edges ∨
          ∃ r ∈ rules, ∃ d ∈ r.ruleDeps, e = (d, r.path)) := by
  intro rules
  induction rules with
  | nil =>
    intro g h
    exact ⟨g, rfl, rfl, ⟨[], by simp⟩, by simp [addRulesEdges]⟩
  | cons r rest ih =>
    intro g h
    obtain ⟨g1, hok1, hnodes1, ⟨e1, hext1⟩, hchar1⟩ :=
      addDepEdges_spec proj r.path r.ruleDeps g
        (h r (List.mem_cons_self r rest))
    have hrest : ∀ r' ∈ rest, DepsPresent proj g1 r' := by
      intro r' hr' d hd
      obtain ⟨h1, h2⟩ := h r' (List.mem_cons_of_mem r hr') d hd
      refine ⟨h1, ?_⟩
      unfold gNodes
      rw [hnodes1]
      exact h2
    obtain ⟨g', hok, hnodes, ⟨e2, hext2⟩, hchar⟩ := ih g1 hrest
    refine ⟨g', ?_, ?_, ?_, ?_⟩
    · unfold addRulesEdges
      rw [hok1]
      show addRulesEdges proj g1 rest = .ok g'
      exact hok
    · rw [hnodes, hnodes1]
    · exact ⟨e1 ++ e2, by rw [hext2, hext1, List.append_assoc]⟩
    · intro e
      rw [hchar e, hchar1 e]
      constructor
      · rintro ((h1 | ⟨d, hd, rfl⟩) | ⟨r', hr', d, hd, rfl⟩)
        · exact Or.inl h1
        · exact Or.inr ⟨r, List.mem_cons_self r rest, d, hd, rfl⟩
        · exact Or.inr ⟨r', List.mem_cons_of_mem r hr', d, hd, rfl⟩
      · rintro (h1 | ⟨r', hr', d, hd, rfl⟩)
        · exact Or.inl (Or.inl h1)
        · rcases List.mem_cons.mp hr' with rfl | hr2
          · exact Or.inl (Or.inr ⟨d, hd, rfl⟩)
          · exact Or.inr ⟨r', hr2, d, hd, rfl⟩

theorem graphInv_after_edges {proj : Project} {g g' : RuleGraph}
    {rules : List GRule} (inv : GraphInv proj g)
    (hpres : ∀ r ∈ rules, DepsPresent proj g r)
    (hstored : ∀ r ∈ rules, (r.path, r) ∈ g.ruleNodes)
    (hnodes : g'.ruleNodes = g.ruleNodes)
    (hchar : ∀ e, e ∈ g'.edges ↔ e ∈ g.edges ∨
      ∃ r ∈ rules, ∃ d ∈ r.ruleDeps, e = (d, r.path)) :
    GraphInv proj g' := by
  have hgn : gNodes g' = gNodes g := by
    unfold gNodes
    rw [hnodes]
  constructor
  · intro pr hpr
    rw [hnodes] at hpr
    exact inv.nodesOK pr hpr
  · intro e he
    rcases (hchar e).mp he with h1 | ⟨r, hr, d, hd, rfl⟩
    · obtain ⟨ha, prb, hprb, hk, hdp⟩ := inv.edgesOK e h1
      rw [hgn]
      exact ⟨ha, prb, by rw [hnodes]; exact hprb, hk, hdp⟩
    · refine ⟨?_, (r.path, r), by rw [hnodes]; exact hstored r hr, rfl, hd⟩
      rw [hgn]
      exact (hpres r hr d hd).2



/-- Precondition of a `.scan`/`.present` call.  `Anc` is the (ghost)
chain of rule paths whose dependency-ensure call is still in progress
in enclosing stack frames: their nodes exist but their edges are
pending.  Every requested path resolves and is a transitive dependency
of every in-progress ancestor. -/
def ScanPre (proj : Project) (Anc : List String) (g : RuleGraph)
    (paths : List String) : Prop :=
  GraphInv proj g ∧
  (∀ pr ∈ g.ruleNodes, pr.1 ∉ Anc → DepsPresent proj g pr.2) ∧
  (∀ p ∈ paths, (∃ rp, resolveRule proj p = some rp) ∧
    ∀ a ∈ Anc, Relation.TransGen (depRelP proj) p a)

/-- Postcondition of a successful `.scan` call. -/
def ScanPost (proj : Project) (Anc : List String) (g g' : RuleGraph)
    (paths : List String) (rules : List GRule) : Prop :=
  Extends g g' ∧ GraphInv proj g' ∧
  List.Forall₂ (fun p r => resolveRule proj p = some r) paths rules ∧
  (∀ p ∈ paths, p ∈ gNodes g') ∧
  (∀ r ∈ rules, DepsPresent proj g' r) ∧
  (∀ pr ∈ g'.ruleNodes, pr.1 ∉ Anc → DepsPresent proj g' pr.2) ∧
  (∀ pr ∈ g'.ruleNodes, pr ∉ g.ruleNodes →
    (DepsDone proj g' pr.2 ∨ ∃ p ∈ paths, pr.1 = p)) ∧
  (∀ pr ∈ g'.ruleNodes, pr ∈ g.ruleNodes ∨
    ∃ p ∈ paths, pr.1 = p ∨ Relation.TransGen (depRelP proj) pr.1 p)

/-- Postcondition of a successful `.present` call. -/
def PresentPost (proj : Project) (Anc : List String) (g g' : RuleGraph)
    (paths : List String) : Prop :=
  Extends g g' ∧ GraphInv proj g' ∧
  (∀ p ∈ paths, ∃ rp, resolveRule proj p = some rp ∧ p ∈ gNodes g' ∧
    DepsDone proj g' rp) ∧
  (∀ pr ∈ g'.ruleNodes, pr.1 ∉ Anc → DepsPresent proj g' pr.2) ∧
  (∀ pr ∈ g'.ruleNodes, pr ∉ g.ruleNodes → DepsDone proj g' pr.2) ∧
  (∀ pr ∈ g'.ruleNodes, pr ∈ g.ruleNodes ∨
    ∃ p ∈ paths, pr.1 = p ∨ Relation.TransGen (depRelP proj) pr.1 p)

theorem forall₂_mem_left {α β : Type} {R : α → β → Prop} :
    ∀ {l1 : List α} {l2 : List β}, List.Forall₂ R l1 l2 →
      ∀ a ∈ l1, ∃ b ∈ l2, R a b := by
  intro l1
  induction l1 with
  | nil =>
    intro l2 h a ha
    exact absurd ha (List.not_mem_nil a)
  | cons x rest ih =>
    intro l2 h a ha
    cases h with
    | cons hxy hrest =>
      rcases List.mem_cons.mp ha with rfl | hmem
      · exact ⟨_, List.mem_cons_self _ _, hxy⟩
      · obtain ⟨b, hb, hR⟩ := ih hrest a hmem
        exact ⟨b, List.mem_cons_of_mem _ hb, hR⟩

theorem mem_gNodes_node_pair {proj : Project} {g : RuleGraph}
    (inv : GraphInv proj g) {p : String} {rp : GRule}
    (hrp : resolveRule proj p = some rp) (hmem : p ∈ gNodes g) :
    (p, rp) ∈ g.ruleNodes := by
  obtain ⟨pr, hpr, hkey⟩ := List.mem_map.mp hmem
  have h2 := inv.nodesOK pr hpr
  rw [hkey] at h2
  rw [h2] at hrp
  have : pr = (p, rp) := by
    obtain ⟨a, b⟩ := pr
    simp only at hkey
    obtain rfl := Option.some_inj.mp hrp
    rw [hkey]
  rw [← this]
  exact hpr

theorem graphInv_addNode {proj : Project} {g : RuleGraph} {p : String}
    {rp : GRule} (inv : GraphInv proj g)
    (hrp : resolveRule proj p = some rp) :
    GraphInv proj (g.addNode rp) := by
  have hp : rp.path = p := resolveRule_path hrp
  constructor
  · intro pr hpr
    unfold RuleGraph.addNode at hpr
    rcases List.mem_append.mp hpr with h1 | h1
    · exact inv.nodesOK pr h1
    · rw [List.mem_singleton] at h1
      subst h1
      rw [hp]
      exact hrp
  · intro e he
    have he' : e ∈ g.edges := he
    obtain ⟨h1, prb, hprb, hk, hd⟩ := inv.edgesOK e he'
    refine ⟨?_, prb, ?_, hk, hd⟩
    · rw [gNodes_addNode]
      exact List.mem_append_left _ h1
    · unfold RuleGraph.addNode
      exact List.mem_append_left _ hprb

theorem extends_addNode (g : RuleGraph) (r : GRule) :
    Extends g (g.addNode r) :=
  ⟨⟨[(r.path, r)], rfl⟩, ⟨[], by simp [RuleGraph.addNode]⟩⟩


theorem forall₂_mem_right {α β : Type} {R : α → β → Prop} :
    ∀ {l1 : List α} {l2 : List β}, List.Forall₂ R l1 l2 →
      ∀ b ∈ l2, ∃ a ∈ l1, R a b := by
  intro l1
  induction l1 with
  | nil =>
    intro l2 h b hb
    cases h
    exact absurd hb (List.not_mem_nil b)
  | cons x rest ih =>
    intro l2 h b hb
    cases h with
    | cons hxy hrest =>
      rcases List.mem_cons.mp hb with rfl | hmem
      · exact ⟨x, List.mem_cons_self _ _, hxy⟩
      · obtain ⟨a, ha, hR⟩ := ih hrest b hmem
        exact ⟨a, List.mem_cons_of_mem _ ha, hR⟩

set_option maxHeartbeats 1000000

theorem ensureGo_main (proj : Project)
    (HR : ∀ r ∈ proj, ∀ d ∈ r.ruleDeps, ∃ dr, resolveRule proj d = some dr)
    (HA : ∀ p, ¬ Relation.TransGen (depRelP proj) p p) :
    ∀ k : Nat,
    (∀ (Anc : List String) (g : RuleGraph) (paths : List String),
      newCard proj g ≤ k → ScanPre proj Anc g paths →
      ∃ fuel g' rules,
        ensureGo proj fuel (.scan g paths) = .ok (g', rules) ∧
        ScanPost proj Anc g g' paths rules) ∧
    (∀ (Anc : List String) (g : RuleGraph) (paths : List String),
      newCard proj g ≤ k → ScanPre proj Anc g paths →
      ∃ fuel g' rules,
        ensureGo proj fuel (.present g paths) = .ok (g', rules) ∧
        PresentPost proj Anc g g' paths) := by
  intro k
  induction k using Nat.strong_induction_on with
  | _ k ih =>
  have scanK : ∀ (Anc : List String) (g : RuleGraph) (paths : List String),
      newCard proj g ≤ k → ScanPre proj Anc g paths →
      ∃ fuel g' rules,
        ensureGo proj fuel (.scan g paths) = .ok (g', rules) ∧
        ScanPost proj Anc g g' paths rules := by
    intro Anc g paths
    induction paths generalizing g with
    | nil =>
      intro hk hpre
      refine ⟨1, g, [], ensureGo_scan_nil proj 0 g, ?_⟩
      refine ⟨Extends.refl g, hpre.1, List.Forall₂.nil, ?_, ?_, ?_, ?_, ?_⟩
      · intro p hp
        exact absurd hp (List.not_mem_nil p)
      · intro r hr
        exact absurd hr (List.not_mem_nil r)
      · exact hpre.2.1
      · intro pr hpr hnew
        exact absurd hpr hnew
      · intro pr hpr
        exact Or.inl hpr
    | cons p rest ihp =>
      intro hk hpre
      obtain ⟨hinv, hdinv, hpaths⟩ := hpre
      obtain ⟨⟨rp, hrp⟩, hanc⟩ := hpaths p (List.mem_cons_self p rest)
      have hrpp : rp.path = p := resolveRule_path hrp
      have hpnotanc : p ∉ Anc := by
        intro hmem
        exact HA p (hanc p hmem)
      by_cases hmem : (g.node? rp.path).isSome
      · -- already present
        have hpg : p ∈ gNodes g := by
          rw [← hrpp]
          exact node?_isSome_iff.mp hmem
        have hpair : (p, rp) ∈ g.ruleNodes := mem_gNodes_node_pair hinv hrp hpg
        have hdp : DepsPresent proj g rp := by
          have := hdinv (p, rp) hpair hpnotanc
          exact this
        obtain ⟨fuel1, g', rules, hok, hpost⟩ := ihp g hk
          ⟨hinv, hdinv, fun q hq => hpaths q (List.mem_cons_of_mem p hq)⟩
        refine ⟨fuel1 + 1, g', rp :: rules, ?_, ?_⟩
        · rw [ensureGo_scan_cons_hit proj fuel1 g p rest rp hrp hmem, hok]
          rfl
        · obtain ⟨hx, hinv', hfa, hnod, hdpr, hdinv', hnew, hreach⟩ := hpost
          refine ⟨hx, hinv', List.Forall₂.cons hrp hfa, ?_, ?_, hdinv',
            ?_, ?_⟩
          · intro q hq
            rcases List.mem_cons.mp hq with rfl | hq2
            · exact hx.nodes_subset q hpg
            · exact hnod q hq2
          · intro r hr
            rcases List.mem_cons.mp hr with rfl | hr2
            · exact hdp.mono hx
            · exact hdpr r hr2
          · intro pr hpr hprnew
            rcases hnew pr hpr hprnew with h1 | ⟨q, hq, hkey⟩
            · exact Or.inl h1
            · exact Or.inr ⟨q, List.mem_cons_of_mem p hq, hkey⟩
          · intro pr hpr
            rcases hreach pr hpr with h1 | ⟨q, hq, h2⟩
            · exact Or.inl h1
            · exact Or.inr ⟨q, List.mem_cons_of_mem p hq, h2⟩
      · -- new node
        have hmem' : (g.node? rp.path).isSome = false := by
          rw [Bool.eq_false_iff]
          exact hmem
        have hpnew : p ∉ gNodes g := by
          rw [← hrpp]
          intro h
          exact hmem (node?_isSome_iff.mpr h)
        have hinv1 : GraphInv proj (g.addNode rp) := graphInv_addNode hinv hrp
        have hx1 : Extends g (g.addNode rp) := extends_addNode g rp
        have hpg1 : p ∈ gNodes (g.addNode rp) := by
          rw [gNodes_addNode, ← hrpp]
          exact List.mem_append_right _ (by simp)
        have hrpmem : rp ∈ proj := resolveRule_mem hrp
        have hkaddle : newCard proj (g.addNode rp) < newCard proj g :=
          newCard_addNode_lt hrpmem (by rw [hrpp]; exact hpnew)
        have hnodes_val : ∀ pr ∈ (g.addNode rp).ruleNodes,
            pr ∈ g.ruleNodes ∨ pr = (p, rp) := by
          intro pr hpr
          unfold RuleGraph.addNode at hpr
          rcases List.mem_append.mp hpr with h1 | h1
          · exact Or.inl h1
          · right
            rw [List.mem_singleton] at h1
            rw [h1, hrpp]
        cases hdeps : rp.ruleDeps.isEmpty with
        | true =>
          have hdnil : rp.ruleDeps = [] := by
            rwa [List.isEmpty_iff] at hdeps
          have hdpvac : ∀ gg : RuleGraph, DepsPresent proj gg rp := by
            intro gg d hd
            rw [hdnil] at hd
            exact absurd hd (List.not_mem_nil d)
          have hddvac : ∀ gg : RuleGraph, DepsDone proj gg rp := by
            intro gg d hd
            rw [hdnil] at hd
            exact absurd hd (List.not_mem_nil d)
          have hpre1 : ScanPre proj Anc (g.addNode rp) rest := by
            refine ⟨hinv1, ?_, fun q hq => hpaths q (List.mem_cons_of_mem p hq)⟩
            intro pr hpr hprnotanc
            rcases hnodes_val pr hpr with h1 | rfl
            · exact (hdinv pr h1 hprnotanc).mono hx1
            · exact hdpvac _
          obtain ⟨fuel1, g', rules, hok, hpost⟩ :=
            ihp (g.addNode rp) (le_trans (le_of_lt hkaddle) hk) hpre1
          refine ⟨fuel1 + 1, g', rp :: rules, ?_, ?_⟩
          · rw [ensureGo_scan_cons_nodeps proj fuel1 g p rest rp hrp hmem'
              hdeps, hok]
            rfl
          · obtain ⟨hx, hinv', hfa, hnod, hdpr, hdinv', hnew, hreach⟩ := hpost
            refine ⟨hx1.trans hx, hinv', List.Forall₂.cons hrp hfa, ?_, ?_,
              hdinv', ?_, ?_⟩
            · intro q hq
              rcases List.mem_cons.mp hq with rfl | hq2
              · exact hx.nodes_subset q hpg1
              · exact hnod q hq2
            · intro r hr
              rcases List.mem_cons.mp hr with rfl | hr2
              · exact hdpvac _
              · exact hdpr r hr2
            · intro pr hpr hprnew
              by_cases h1 : pr ∈ (g.addNode rp).ruleNodes
              · rcases hnodes_val pr h1 with h2 | rfl
                · exact absurd h2 hprnew
                · exact Or.inr ⟨p, List.mem_cons_self p rest, rfl⟩
              · rcases hnew pr hpr h1 with h2 | ⟨q, hq, hkey⟩
                · exact Or.inl h2
                · exact Or.inr ⟨q, List.mem_cons_of_mem p hq, hkey⟩
            · intro pr hpr
              by_cases h1 : pr ∈ (g.addNode rp).ruleNodes
              · rcases hnodes_val pr h1 with h2 | rfl
                · exact Or.inl h2
                · exact Or.inr ⟨p, List.mem_cons_self p rest, Or.inl rfl⟩
              · rcases hreach pr hpr with h2 | ⟨q, hq, h3⟩
                · exact absurd h2 h1
                · exact Or.inr ⟨q, List.mem_cons_of_mem p hq, h3⟩
        | false =>
          have hk1lt : newCard proj (g.addNode rp) < k :=
            lt_of_lt_of_le hkaddle hk
          have hpreP : ScanPre proj (Anc ++ [p]) (g.addNode rp)
              rp.ruleDeps := by
            refine ⟨hinv1, ?_, ?_⟩
            · intro pr hpr hprnotanc
              rcases hnodes_val pr hpr with h1 | rfl
              · refine (hdinv pr h1 ?_).mono hx1
                intro hmem2
                exact hprnotanc (List.mem_append_left _ hmem2)
              · exact absurd (List.mem_append_right _
                  (List.mem_singleton_self p)) hprnotanc
            · intro d hd
              have hdres := HR rp hrpmem d hd
              have hstep : depRelP proj d p := ⟨hdres, rp, hrp, hd⟩
              refine ⟨hdres, ?_⟩
              intro a ha
              rcases List.mem_append.mp ha with ha1 | ha2
              · exact Relation.TransGen.trans
                  (Relation.TransGen.single hstep) (hanc a ha1)
              · rw [List.mem_singleton] at ha2
                subst ha2
                exact Relation.TransGen.single hstep
          obtain ⟨fuelP, g15, rulesP, hokP, postP⟩ :=
            (ih (newCard proj (g.addNode rp)) hk1lt).2 (Anc ++ [p])
              (g.addNode rp) rp.ruleDeps (le_refl _) hpreP
          obtain ⟨hxP, hinvP, hP3, hdinvP, hPnew, hPreach⟩ := postP
          have hnodeval15 : ∀ pr ∈ g15.ruleNodes, pr.1 = p → pr.2 = rp := by
            intro pr hpr hkey
            have h2 := hinvP.nodesOK pr hpr
            rw [hkey, hrp] at h2
            exact (Option.some_inj.mp h2).symm
          have hdp15 : DepsPresent proj g15 rp := by
            intro d hd
            obtain ⟨rd, hrd, hdm, -⟩ := hP3 d hd
            exact ⟨⟨rd, hrd⟩, hdm⟩
          have hpreS : ScanPre proj Anc g15 rest := by
            refine ⟨hinvP, ?_, fun q hq => hpaths q (List.mem_cons_of_mem p hq)⟩
            intro pr hpr hprnotanc
            by_cases hkey : pr.1 = p
            · have := hnodeval15 pr hpr hkey
              rw [this]
              exact hdp15
            · refine hdinvP pr hpr ?_
              intro hmem2
              rcases List.mem_append.mp hmem2 with h1 | h1
              · exact hprnotanc h1
              · rw [List.mem_singleton] at h1
                exact hkey h1
          obtain ⟨fuelS, g', rules, hokS, postS⟩ := ihp g15
            (le_trans (newCard_le_of_extends hxP) (le_of_lt hk1lt)) hpreS
          obtain ⟨hxS, hinvS, hfaS, hnodS, hdprS, hdinvS, hnewS, hreachS⟩ :=
            postS
          have hokP2 : ensureGo proj (max fuelP fuelS)
              (.present (g.addNode rp) rp.ruleDeps) = .ok (g15, rulesP) := by
            rw [ensureGo_mono proj fuelP (max fuelP fuelS) _
              (le_max_left _ _) (by rw [hokP]; intro h; cases h), hokP]
          have hokS2 : ensureGo proj (max fuelP fuelS) (.scan g15 rest) =
              .ok (g', rules) := by
            rw [ensureGo_mono proj fuelS (max fuelP fuelS) _
              (le_max_right _ _) (by rw [hokS]; intro h; cases h), hokS]
          refine ⟨max fuelP fuelS + 1, g', rp :: rules, ?_, ?_⟩
          · rw [ensureGo_scan_cons_deps proj (max fuelP fuelS) g p rest rp
              hrp hmem' hdeps, hokP2]
            show (do
              let (g2, rules) ← ensureGo proj (max fuelP fuelS)
                (.scan g15 rest)
              Except.ok (g2, rp :: rules)) = _
            rw [hokS2]
            rfl
          · refine ⟨hx1.trans (hxP.trans hxS), hinvS,
              List.Forall₂.cons hrp hfaS, ?_, ?_, hdinvS, ?_, ?_⟩
            · intro q hq
              rcases List.mem_cons.mp hq with rfl | hq2
              · exact hxS.nodes_subset q (hxP.nodes_subset q hpg1)
              · exact hnodS q hq2
            · intro r hr
              rcases List.mem_cons.mp hr with rfl | hr2
              · exact hdp15.mono hxS
              · exact hdprS r hr2
            · intro pr hpr hprnew
              by_cases h15 : pr ∈ g15.ruleNodes
              · by_cases h1 : pr ∈ (g.addNode rp).ruleNodes
                · rcases hnodes_val pr h1 with h2 | rfl
                  · exact absurd h2 hprnew
                  · exact Or.inr ⟨p, List.mem_cons_self p rest, rfl⟩
                · rcases hPnew pr h15 h1 with h2
                  exact Or.inl (h2.mono_d hxS)
              · rcases hnewS pr hpr h15 with h2 | ⟨q, hq, hkey⟩
                · exact Or.inl h2
                · exact Or.inr ⟨q, List.mem_cons_of_mem p hq, hkey⟩
            · intro pr hpr
              by_cases h15 : pr ∈ g15.ruleNodes
              · by_cases h1 : pr ∈ (g.addNode rp).ruleNodes
                · rcases hnodes_val pr h1 with h2 | rfl
                  · exact Or.inl h2
                  · exact Or.inr ⟨p, List.mem_cons_self p rest, Or.inl rfl⟩
                · rcases hPreach pr h15 with h2 | ⟨q, hq, h3⟩
                  · exact absurd h2 h1
                  · have hstep : depRelP proj q p :=
                      ⟨HR rp hrpmem q hq, rp, hrp, hq⟩
                    refine Or.inr ⟨p, List.mem_cons_self p rest, Or.inr ?_⟩
                    rcases h3 with rfl | h4
                    · exact Relation.TransGen.single hstep
                    · exact Relation.TransGen.tail h4 hstep
              · rcases hreachS pr hpr with h2 | ⟨q, hq, h3⟩
                · exact absurd h2 h15
                · exact Or.inr ⟨q, List.mem_cons_of_mem p hq, h3⟩
  refine ⟨scanK, ?_⟩
  intro Anc g paths hk hpre
  obtain ⟨fuel1, g1, rules, hok1, hpost1⟩ := scanK Anc g paths hk hpre
  obtain ⟨hx1, hinv1, hfa, hnod, hdpr, hdinv1, hnew1, hreach1⟩ := hpost1
  have hstored : ∀ r ∈ rules, (r.path, r) ∈ g1.ruleNodes := by
    intro r hr
    obtain ⟨p, hp, hres⟩ := forall₂_mem_right hfa r hr
    have hrpath : r.path = p := resolveRule_path hres
    have := mem_gNodes_node_pair hinv1 hres (hnod p hp)
    rw [hrpath]
    exact this
  obtain ⟨g2, hok2, hnodes2, hext2, hchar2⟩ :=
    addRulesEdges_spec proj rules g1 hdpr
  have hx2 : Extends g1 g2 := ⟨⟨[], by rw [hnodes2, List.append_nil]⟩, hext2⟩
  have hinv2 : GraphInv proj g2 :=
    graphInv_after_edges hinv1 hdpr hstored hnodes2 hchar2
  have hdag : g2.isDAG = true := isDAG_of_inv hinv2 HA
  have hgn2 : gNodes g2 = gNodes g1 := by
    unfold gNodes
    rw [hnodes2]
  refine ⟨fuel1 + 1, g2, rules, ?_, ?_⟩
  · rw [ensureGo_present_unfold, hok1]
    show (do
      let g2' ← addRulesEdges proj g1 rules
      if g2'.isDAG then Except.ok (g2', rules)
      else Except.error GraphErr.cycleError) = _
    rw [hok2]
    show (if g2.isDAG then Except.ok (g2, rules)
      else Except.error GraphErr.cycleError) = _
    rw [hdag]
    simp
  · refine ⟨hx1.trans hx2, hinv2, ?_, ?_, ?_, ?_⟩
    · intro p hp
      obtain ⟨r, hr, hres⟩ := forall₂_mem_left hfa p hp
      refine ⟨r, hres, hx2.nodes_subset p (hnod p hp), ?_⟩
      intro d hd
      obtain ⟨hdres, hdg⟩ := hdpr r hr d hd
      exact ⟨hdres, hx2.nodes_subset d hdg,
        (hchar2 _).mpr (Or.inr ⟨r, hr, d, hd, rfl⟩)⟩
    · intro pr hpr hprnotanc
      rw [hnodes2] at hpr
      exact (hdinv1 pr hpr hprnotanc).mono hx2
    · intro pr hpr hprnew
      rw [hnodes2] at hpr
      rcases hnew1 pr hpr hprnew with h1 | ⟨p, hp, hkey⟩
      · exact h1.mono_d hx2
      · obtain ⟨r, hr, hres⟩ := forall₂_mem_left hfa p hp
        have hval : pr.2 = r := by
          have h2 := hinv1.nodesOK pr hpr
          rw [hkey, hres] at h2
          exact (Option.some_inj.mp h2).symm
        rw [hval]
        intro d hd
        obtain ⟨hdres, hdg⟩ := hdpr r hr d hd
        exact ⟨hdres, hx2.nodes_subset d hdg,
          (hchar2 _).mpr (Or.inr ⟨r, hr, d, hd, rfl⟩)⟩
    · intro pr hpr
      rw [hnodes2] at hpr
      exact hreach1 pr hpr



/-- One step along the reversed graph's edges. -/
def redgeStep (redges : List (String × String)) (a b : String) : Prop :=
  (a, b) ∈ redges

/-- A sequence-graph node whose reverse out-edges have all been walked:
every out-neighbour is a node and the corresponding edge is present. -/
def SClosed (redges : List (String × String)) (sg : SeqGraph)
    (u : String) : Prop :=
  ∀ w, (u, w) ∈ redges → w ∈ sg.nodes ∧ (u, w) ∈ sg.edges

/-- Sequence-graph extension by appending. -/
def SExtends (sg sg' : SeqGraph) : Prop :=
  (∃ n, sg'.nodes = sg.nodes ++ n) ∧ (∃ e, sg'.edges = sg.edges ++ e)

theorem SExtends.refl' (sg : SeqGraph) : SExtends sg sg :=
  ⟨⟨[], by simp⟩, ⟨[], by simp⟩⟩

theorem SExtends.trans' {s1 s2 s3 : SeqGraph} (h12 : SExtends s1 s2)
    (h23 : SExtends s2 s3) : SExtends s1 s3 := by
  obtain ⟨⟨n1, hn1⟩, ⟨e1, he1⟩⟩ := h12
  obtain ⟨⟨n2, hn2⟩, ⟨e2, he2⟩⟩ := h23
  exact ⟨⟨n1 ++ n2, by rw [hn2, hn1, List.append_assoc]⟩,
    ⟨e1 ++ e2, by rw [he2, he1, List.append_assoc]⟩⟩

theorem SExtends.nodes_subset' {s1 s2 : SeqGraph} (h : SExtends s1 s2) :
    ∀ u ∈ s1.nodes, u ∈ s2.nodes := by
  obtain ⟨⟨n, hn⟩, -⟩ := h
  intro u hu
  rw [hn]
  exact List.mem_append_left _ hu

theorem SExtends.edges_subset' {s1 s2 : SeqGraph} (h : SExtends s1 s2) :
    ∀ e ∈ s1.edges, e ∈ s2.edges := by
  obtain ⟨-, ⟨ee, he⟩⟩ := h
  intro e hee
  rw [he]
  exact List.mem_append_left _ hee

theorem SClosed.mono' {redges : List (String × String)} {s1 s2 : SeqGraph}
    {u : String} (h : SClosed redges s1 u) (hx : SExtends s1 s2) :
    SClosed redges s2 u := by
  intro w hw
  obtain ⟨h1, h2⟩ := h w hw
  exact ⟨hx.nodes_subset' w h1, hx.edges_subset' _ h2⟩

theorem seqAddNode_new {sg : SeqGraph} {v : String} (h : v ∉ sg.nodes) :
    sg.addNode v = ⟨sg.nodes ++ [v], sg.edges⟩ := by
  unfold SeqGraph.addNode
  rw [if_neg h]

theorem seqAddEdge_nodes (sg : SeqGraph) (a b : String) :
    (sg.addEdge a b).nodes = sg.nodes := by
  unfold SeqGraph.addEdge
  by_cases h : (a, b) ∈ sg.edges <;> simp [h]

theorem seqAddEdge_extends (sg : SeqGraph) (a b : String) :
    SExtends sg (sg.addEdge a b) := by
  unfold SeqGraph.addEdge
  by_cases h : (a, b) ∈ sg.edges
  · rw [if_pos h]
    exact SExtends.refl' sg
  · rw [if_neg h]
    exact ⟨⟨[], by simp⟩, ⟨[(a, b)], rfl⟩⟩

theorem seqAddEdge_mem (sg : SeqGraph) (a b : String) (e : String × String) :
    e ∈ (sg.addEdge a b).edges ↔ e ∈ sg.edges ∨ e = (a, b) := by
  unfold SeqGraph.addEdge
  by_cases h : (a, b) ∈ sg.edges
  · rw [if_pos h]
    constructor
    · exact Or.inl
    · rintro (h1 | rfl)
      · exact h1
      · exact h
  · rw [if_neg h]
    simp

theorem seqAddEdge_mem_self (sg : SeqGraph) (a b : String) :
    (a, b) ∈ (sg.addEdge a b).edges :=
  (seqAddEdge_mem sg a b (a, b)).mpr (Or.inr rfl)

/-- Number of graph nodes not yet visited by the sequence walk. -/
def snewCard (allNodes : List String) (sg : SeqGraph) : Nat :=
  (allNodes.toFinset \ sg.nodes.toFinset).card

theorem snewCard_le_of_extends {allNodes : List String} {s1 s2 : SeqGraph}
    (h : SExtends s1 s2) : snewCard allNodes s2 ≤ snewCard allNodes s1 := by
  unfold snewCard
  apply Finset.card_le_card
  intro p hp
  rw [Finset.mem_sdiff] at hp ⊢
  refine ⟨hp.1, fun hmem => hp.2 ?_⟩
  rw [List.mem_toFinset] at hmem ⊢
  exact h.nodes_subset' p hmem

theorem snewCard_addNode_lt {allNodes : List String} {sg : SeqGraph}
    {v : String} (hmem : v ∈ allNodes) (hnew : v ∉ sg.nodes) :
    snewCard allNodes ⟨sg.nodes ++ [v], sg.edges⟩ <
      snewCard allNodes sg := by
  unfold snewCard
  apply Finset.card_lt_card
  have hsub : (allNodes.toFinset \ (sg.nodes ++ [v]).toFinset) ⊆
      (allNodes.toFinset \ sg.nodes.toFinset) := by
    intro p hp
    rw [Finset.mem_sdiff, List.mem_toFinset] at hp ⊢
    refine ⟨hp.1, fun hmem2 => hp.2 ?_⟩
    rw [List.mem_toFinset] at hmem2 ⊢
    exact List.mem_append_left _ hmem2
  rw [Finset.ssubset_iff_of_subset hsub]
  refine ⟨v, ?_, ?_⟩
  · rw [Finset.mem_sdiff, List.mem_toFinset, List.mem_toFinset]
    exact ⟨hmem, hnew⟩
  · rw [Finset.mem_sdiff, List.mem_toFinset, List.mem_toFinset]
    rintro ⟨-, hno⟩
    exact hno (List.mem_append_right _ (by simp))

theorem seqGo_node_hit (redges : List (String × String)) (fuel : Nat)
    (sg : SeqGraph) (v : String) (h : v ∈ sg.nodes) :
    seqGo redges (fuel+1) (.node sg v) = .ok sg := by
  simp [seqGo, h]

theorem seqGo_node_new (redges : List (String × String)) (fuel : Nat)
    (sg : SeqGraph) (v : String) (h : v ∉ sg.nodes) :
    seqGo redges (fuel+1) (.node sg v) =
      seqGo redges fuel (.outs (sg.addNode v) v (outEdges redges v)) := by
  simp [seqGo, h]

theorem seqGo_outs_nil (redges : List (String × String)) (fuel : Nat)
    (sg : SeqGraph) (v : String) :
    seqGo redges (fuel+1) (.outs sg v []) = .ok sg := rfl

theorem seqGo_outs_cons_hit (redges : List (String × String)) (fuel : Nat)
    (sg : SeqGraph) (v : String) (e : String × String)
    (rest : List (String × String)) (h : e.2 ∈ sg.nodes) :
    seqGo redges (fuel+1) (.outs sg v (e :: rest)) =
      seqGo redges fuel (.outs (sg.addEdge v e.2) v rest) := by
  simp only [seqGo, h, if_pos]
  rfl

theorem seqGo_outs_cons_new (redges : List (String × String)) (fuel : Nat)
    (sg : SeqGraph) (v : String) (e : String × String)
    (rest : List (String × String)) (h : e.2 ∉ sg.nodes) :
    seqGo redges (fuel+1) (.outs sg v (e :: rest)) = (do
      let sg1 ← seqGo redges fuel (.node sg e.2)
      seqGo redges fuel (.outs (sg1.addEdge v e.2) v rest)) := by
  simp [seqGo, h]

theorem seqGo_mono (redges : List (String × String)) :
    ∀ fuel fuel' c, fuel ≤ fuel' →
      seqGo redges fuel c ≠ .error .stackOverflow →
      seqGo redges fuel' c = seqGo redges fuel c := by
  intro fuel
  induction fuel with
  | zero =>
    intro fuel' c h hne
    exact absurd rfl hne
  | succ fuel ih =>
    intro fuel' c hle hne
    obtain ⟨fuel2, rfl⟩ : ∃ m, fuel' = m + 1 := ⟨fuel' - 1, by omega⟩
    have hle2 : fuel ≤ fuel2 := by omega
    cases c with
    | node sg v =>
      by_cases h : v ∈ sg.nodes
      · rw [seqGo_node_hit _ _ _ _ h, seqGo_node_hit _ _ _ _ h]
      · rw [seqGo_node_new _ _ _ _ h, seqGo_node_new _ _ _ _ h]
        refine ih fuel2 _ hle2 ?_
        rw [← seqGo_node_new _ _ _ _ h]
        exact hne
    | outs sg v outs =>
      cases outs with
      | nil =>
        rw [seqGo_outs_nil, seqGo_outs_nil]
      | cons e rest =>
        by_cases h : e.2 ∈ sg.nodes
        · rw [seqGo_outs_cons_hit _ _ _ _ _ _ h,
            seqGo_outs_cons_hit _ _ _ _ _ _ h]
          refine ih fuel2 _ hle2 ?_
          rw [← seqGo_outs_cons_hit _ _ _ _ _ _ h]
          exact hne
        · rw [seqGo_outs_cons_new _ _ _ _ _ _ h,
            seqGo_outs_cons_new _ _ _ _ _ _ h]
          have hsub1 : seqGo redges fuel (.node sg e.2) ≠
              .error .stackOverflow := by
            intro hso
            apply hne
            rw [seqGo_outs_cons_new _ _ _ _ _ _ h, hso]
            rfl
          rw [ih fuel2 _ hle2 hsub1]
          cases hval : seqGo redges fuel (.node sg e.2) with
          | error er => rfl
          | ok sg1 =>
            show seqGo redges fuel2 (.outs (sg1.addEdge v e.2) v rest) =
              seqGo redges fuel (.outs (sg1.addEdge v e.2) v rest)
            have hsub2 : seqGo redges fuel
                (.outs (sg1.addEdge v e.2) v rest) ≠
                .error .stackOverflow := by
              intro hso
              apply hne
              rw [seqGo_outs_cons_new _ _ _ _ _ _ h, hval]
              show seqGo redges fuel (.outs (sg1.addEdge v e.2) v rest) = _
              rw [hso]
            rw [ih fuel2 _ hle2 hsub2]


/-- Precondition of `_add_rule_node_dependencies` on one node: the
visited part of the sequence graph is fully walked except for the
ghost ancestor chain `AncD` of in-progress callers, each of which
reaches `v` in the reversed graph. -/
def SeqNodePre (redges : List (String × String)) (allNodes : List String)
    (AncD : List String) (sg : SeqGraph) (v : String) : Prop :=
  (∀ u ∈ sg.nodes, SClosed redges sg u ∨ u ∈ AncD) ∧
  (∀ a ∈ AncD, Relation.TransGen (redgeStep redges) a v) ∧
  (∀ u ∈ sg.nodes, u ∈ allNodes) ∧
  v ∈ allNodes ∧
  (∀ e ∈ sg.edges, e ∈ redges) ∧
  sg.nodes.Nodup

/-- Postcondition of a successful `.node` call. -/
def SeqNodePost (redges : List (String × String)) (allNodes : List String)
    (AncD : List String) (sg sg' : SeqGraph) (v : String) : Prop :=
  SExtends sg sg' ∧
  v ∈ sg'.nodes ∧
  (∀ u ∈ sg'.nodes, u ∉ sg.nodes →
    Relation.ReflTransGen (redgeStep redges) v u) ∧
  (∀ u ∈ sg'.nodes, SClosed redges sg' u ∨ u ∈ AncD) ∧
  (∀ u ∈ sg'.nodes, u ∈ allNodes) ∧
  (∀ e ∈ sg'.edges, e ∈ redges) ∧
  sg'.nodes.Nodup

/-- Precondition of the out-edge loop over `outs` for node `v`. -/
def SeqOutsPre (redges : List (String × String)) (allNodes : List String)
    (AncD : List String) (sg : SeqGraph) (v : String)
    (outs : List (String × String)) : Prop :=
  (∀ u ∈ sg.nodes, SClosed redges sg u ∨ u ∈ AncD ++ [v]) ∧
  (∀ a ∈ AncD, Relation.TransGen (redgeStep redges) a v) ∧
  (∀ u ∈ sg.nodes, u ∈ allNodes) ∧
  v ∈ sg.nodes ∧
  (∀ e ∈ sg.edges, e ∈ redges) ∧
  sg.nodes.Nodup ∧
  (∀ e ∈ outs, e ∈ redges ∧ e.1 = v)

/-- Postcondition of a successful `.outs` loop. -/
def SeqOutsPost (redges : List (String × String)) (allNodes : List String)
    (AncD : List String) (sg sg' : SeqGraph) (v : String)
    (outs : List (String × String)) : Prop :=
  SExtends sg sg' ∧
  (∀ u ∈ sg'.nodes, u ∉ sg.nodes →
    Relation.ReflTransGen (redgeStep redges) v u) ∧
  (∀ u ∈ sg'.nodes, SClosed redges sg' u ∨ u ∈ AncD ++ [v]) ∧
  (∀ e ∈ outs, e.2 ∈ sg'.nodes ∧ (v, e.2) ∈ sg'.edges) ∧
  (∀ u ∈ sg'.nodes, u ∈ allNodes) ∧
  (∀ e ∈ sg'.edges, e ∈ redges) ∧
  sg'.nodes.Nodup

theorem mem_outEdges (redges : List (String × String)) (v : String)
    (e : String × String) :
    e ∈ outEdges redges v ↔ e ∈ redges ∧ e.1 = v := by
  unfold outEdges
  rw [List.mem_filter]
  simp

theorem seqGo_main (redges : List (String × String))
    (allNodes : List String)
    (HredIn : ∀ e ∈ redges, e.1 ∈ allNodes ∧ e.2 ∈ allNodes) :
    ∀ k : Nat,
    (∀ (AncD : List String) (sg : SeqGraph) (v : String),
      snewCard allNodes sg ≤ k → SeqNodePre redges allNodes AncD sg v →
      ∃ fuel sg', seqGo redges fuel (.node sg v) = .ok sg' ∧
        SeqNodePost redges allNodes AncD sg sg' v) ∧
    (∀ (AncD : List String) (sg : SeqGraph) (v : String)
      (outs : List (String × String)),
      snewCard allNodes sg ≤ k →
      SeqOutsPre redges allNodes AncD sg v outs →
      ∃ fuel sg', seqGo redges fuel (.outs sg v outs) = .ok sg' ∧
        SeqOutsPost redges allNodes AncD sg sg' v outs) := by
  intro k
  induction k using Nat.strong_induction_on with
  | _ k ih =>
  have hnode : ∀ (AncD : List String) (sg : SeqGraph) (v : String),
      snewCard allNodes sg ≤ k → SeqNodePre redges allNodes AncD sg v →
      ∃ fuel sg', seqGo redges fuel (.node sg v) = .ok sg' ∧
        SeqNodePost redges allNodes AncD sg sg' v := by
    intro AncD sg v hk hpre
    obtain ⟨n1, n2, n3, n4, n5, n6⟩ := hpre
    by_cases hv : v ∈ sg.nodes
    · refine ⟨1, sg, seqGo_node_hit redges 0 sg v hv, SExtends.refl' sg,
        hv, ?_, n1, n3, n5, n6⟩
      intro u hu hnot
      exact absurd hu hnot
    · have hsg1 : sg.addNode v = ⟨sg.nodes ++ [v], sg.edges⟩ :=
        seqAddNode_new hv
      have hext1 : SExtends sg ⟨sg.nodes ++ [v], sg.edges⟩ :=
        ⟨⟨[v], rfl⟩, ⟨[], by simp⟩⟩
      have hlt : snewCard allNodes ⟨sg.nodes ++ [v], sg.edges⟩ <
          snewCard allNodes sg := snewCard_addNode_lt n4 hv
      have hpreO : SeqOutsPre redges allNodes AncD
          ⟨sg.nodes ++ [v], sg.edges⟩ v (outEdges redges v) := by
        refine ⟨?_, n2, ?_, ?_, n5, ?_, ?_⟩
        · intro u hu
          rcases List.mem_append.mp hu with h | h
          · rcases n1 u h with hc | ha
            · exact Or.inl (hc.mono' hext1)
            · exact Or.inr (List.mem_append_left _ ha)
          · rw [List.mem_singleton] at h
            subst h
            exact Or.inr (List.mem_append_right _ (by simp))
        · intro u hu
          rcases List.mem_append.mp hu with h | h
          · exact n3 u h
          · rw [List.mem_singleton] at h
            subst h
            exact n4
        · exact List.mem_append_right _ (by simp)
        · show (sg.nodes ++ [v]).Nodup
          rw [List.nodup_append]
          refine ⟨n6, List.nodup_singleton v, ?_⟩
          intro a ha hav
          rw [List.mem_singleton] at hav
          subst hav
          exact hv ha
        · intro e he
          exact (mem_outEdges redges v e).mp he
      obtain ⟨fuelO, sgF, hO, pO1, pO2, pO3, pO4, pO5, pO6, pO7⟩ :=
        (ih (k-1) (by omega)).2 AncD ⟨sg.nodes ++ [v], sg.edges⟩ v
          (outEdges redges v) (by omega) hpreO
      refine ⟨fuelO + 1, sgF, ?_, ?_⟩
      · rw [seqGo_node_new redges fuelO sg v hv, hsg1]
        exact hO
      · refine ⟨hext1.trans' pO1, pO1.nodes_subset' v
          (List.mem_append_right _ (by simp)), ?_, ?_, pO5, pO6, pO7⟩
        · intro u hu hnot
          by_cases huv : u = v
          · subst huv
            exact Relation.ReflTransGen.refl
          · refine pO2 u hu ?_
            intro h
            rcases List.mem_append.mp h with h2 | h2
            · exact hnot h2
            · rw [List.mem_singleton] at h2
              exact huv h2
        · intro u hu
          rcases pO3 u hu with hc | ha
          · exact Or.inl hc
          · rcases List.mem_append.mp ha with h2 | h2
            · exact Or.inr h2
            · rw [List.mem_singleton] at h2
              subst h2
              refine Or.inl ?_
              intro w hw
              have hmem : (u, w) ∈ outEdges redges u :=
                (mem_outEdges redges u (u, w)).mpr ⟨hw, rfl⟩
              exact pO4 (u, w) hmem
  refine ⟨hnode, ?_⟩
  intro AncD sg v outs
  induction outs generalizing sg with
  | nil =>
    intro hk hpre
    obtain ⟨n1, n2, n3, n4, n5, n6, n7⟩ := hpre
    refine ⟨1, sg, seqGo_outs_nil redges 0 sg v, SExtends.refl' sg,
      ?_, n1, ?_, n3, n5, n6⟩
    · intro u hu hnot
      exact absurd hu hnot
    · intro e he
      exact absurd he (List.not_mem_nil e)
  | cons e rest ihrest =>
    intro hk hpre
    obtain ⟨n1, n2, n3, n4, n5, n6, n7⟩ := hpre
    obtain ⟨heR, he1⟩ := n7 e (List.mem_cons_self e rest)
    have hve : (v, e.2) = e := by
      rw [← he1]
    have hstep : redgeStep redges v e.2 := by
      unfold redgeStep
      rw [hve]
      exact heR
    by_cases hmem : e.2 ∈ sg.nodes
    · -- already visited: just add the edge and continue
      have hext2 : SExtends sg (sg.addEdge v e.2) :=
        seqAddEdge_extends sg v e.2
      have hnodes2 : (sg.addEdge v e.2).nodes = sg.nodes :=
        seqAddEdge_nodes sg v e.2
      have hpre2 : SeqOutsPre redges allNodes AncD (sg.addEdge v e.2)
          v rest := by
        refine ⟨?_, n2, ?_, ?_, ?_, ?_, ?_⟩
        · intro u hu
          rw [hnodes2] at hu
          rcases n1 u hu with hc | ha
          · exact Or.inl (hc.mono' hext2)
          · exact Or.inr ha
        · intro u hu
          rw [hnodes2] at hu
          exact n3 u hu
        · rw [hnodes2]
          exact n4
        · intro e2 he2
          rcases (seqAddEdge_mem sg v e.2 e2).mp he2 with h | h
          · exact n5 e2 h
          · rw [h, hve]
            exact heR
        · rw [hnodes2]
          exact n6
        · intro e2 he2
          exact n7 e2 (List.mem_cons_of_mem e he2)
      have hk2 : snewCard allNodes (sg.addEdge v e.2) ≤ k := by
        have : snewCard allNodes (sg.addEdge v e.2) =
            snewCard allNodes sg := by
          unfold snewCard
          rw [hnodes2]
        omega
      obtain ⟨fuelR, sgF, hR, pR1, pR2, pR3, pR4, pR5, pR6, pR7⟩ :=
        ihrest (sg.addEdge v e.2) hk2 hpre2
      refine ⟨fuelR + 1, sgF, ?_, ?_⟩
      · rw [seqGo_outs_cons_hit redges fuelR sg v e rest hmem]
        exact hR
      · refine ⟨hext2.trans' pR1, ?_, pR3, ?_, pR5, pR6, pR7⟩
        · intro u hu hnot
          refine pR2 u hu ?_
          rw [hnodes2]
          exact hnot
        · intro e2 he2
          rcases List.mem_cons.mp he2 with rfl | h
          · refine ⟨pR1.nodes_subset' _ ?_, pR1.edges_subset' _ ?_⟩
            · rw [hnodes2]
              exact hmem
            · exact seqAddEdge_mem_self sg v e2.2
          · exact pR4 e2 h
    · -- recurse into the unvisited neighbour, then add the edge
      have hpreN : SeqNodePre redges allNodes (AncD ++ [v]) sg e.2 := by
        refine ⟨n1, ?_, n3, (HredIn e heR).2, n5, n6⟩
        intro a ha
        rcases List.mem_append.mp ha with h | h
        · exact (n2 a h).tail hstep
        · rw [List.mem_singleton] at h
          subst h
          exact Relation.TransGen.single hstep
      obtain ⟨fuelN, sgN, hN, pN1, pN2, pN3, pN4, pN5, pN6, pN7⟩ :=
        hnode (AncD ++ [v]) sg e.2 hk hpreN
      have hext2 : SExtends sgN (sgN.addEdge v e.2) :=
        seqAddEdge_extends sgN v e.2
      have hnodes2 : (sgN.addEdge v e.2).nodes = sgN.nodes :=
        seqAddEdge_nodes sgN v e.2
      have hpre2 : SeqOutsPre redges allNodes AncD (sgN.addEdge v e.2)
          v rest := by
        refine ⟨?_, n2, ?_, ?_, ?_, ?_, ?_⟩
        · intro u hu
          rw [hnodes2] at hu
          rcases pN4 u hu with hc | ha
          · exact Or.inl (hc.mono' hext2)
          · exact Or.inr ha
        · intro u hu
          rw [hnodes2] at hu
          exact pN5 u hu
        · rw [hnodes2]
          exact pN1.nodes_subset' v n4
        · intro e2 he2
          rcases (seqAddEdge_mem sgN v e.2 e2).mp he2 with h | h
          · exact pN6 e2 h
          · rw [h, hve]
            exact heR
        · rw [hnodes2]
          exact pN7
        · intro e2 he2
          exact n7 e2 (List.mem_cons_of_mem e he2)
      have hk2 : snewCard allNodes (sgN.addEdge v e.2) ≤ k := by
        have h1 : snewCard allNodes (sgN.addEdge v e.2) =
            snewCard allNodes sgN := by
          unfold snewCard
          rw [hnodes2]
        have h2 : snewCard allNodes sgN ≤ snewCard allNodes sg := snewCard_le_of_extends pN1
        omega
      obtain ⟨fuelR, sgF, hR, pR1, pR2, pR3, pR4, pR5, pR6, pR7⟩ :=
        ihrest (sgN.addEdge v e.2) hk2 hpre2
      refine ⟨max fuelN fuelR + 1, sgF, ?_, ?_⟩
      · rw [seqGo_outs_cons_new redges (max fuelN fuelR) sg v e rest hmem]
        have hN' : seqGo redges (max fuelN fuelR) (.node sg e.2) =
            .ok sgN := by
          rw [seqGo_mono redges fuelN (max fuelN fuelR) _
            (le_max_left _ _) (by rw [hN]; simp), hN]
        have hR' : seqGo redges (max fuelN fuelR)
            (.outs (sgN.addEdge v e.2) v rest) = .ok sgF := by
          rw [seqGo_mono redges fuelR (max fuelN fuelR) _
            (le_max_right _ _) (by rw [hR]; simp), hR]
        show (do
          let sg1 ← seqGo redges (max fuelN fuelR) (.node sg e.2)
          seqGo redges (max fuelN fuelR)
            (.outs (sg1.addEdge v e.2) v rest)) = .ok sgF
        rw [hN']
        show seqGo redges (max fuelN fuelR)
          (.outs (sgN.addEdge v e.2) v rest) = .ok sgF
        exact hR'
      · refine ⟨(pN1.trans' hext2).trans' pR1, ?_, pR3, ?_, pR5, pR6, pR7⟩
        · intro u hu hnot
          by_cases h2 : u ∈ (sgN.addEdge v e.2).nodes
          · rw [hnodes2] at h2
            exact Relation.ReflTransGen.head hstep (pN3 u h2 hnot)
          · exact pR2 u hu h2
        · intro e2 he2
          rcases List.mem_cons.mp he2 with rfl | h
          · refine ⟨pR1.nodes_subset' _ ?_, pR1.edges_subset' _ ?_⟩
            · rw [hnodes2]
              exact pN2
            · exact seqAddEdge_mem_self sgN v e2.2
          · exact pR4 e2 h

/-- Invariant of the target loop of `calculate_rule_sequence`: a fully
walked sequence graph. -/
def SeqLoopPre (redges : List (String × String)) (allNodes : List String)
    (sg : SeqGraph) : Prop :=
  (∀ u ∈ sg.nodes, SClosed redges sg u) ∧
  (∀ u ∈ sg.nodes, u ∈ allNodes) ∧
  (∀ e ∈ sg.edges, e ∈ redges) ∧
  sg.nodes.Nodup

/-- Postcondition of the target loop: every target's node is present
and every node is reachable from some target in the reversed graph. -/
def SeqLoopPost (proj : Project) (redges : List (String × String))
    (allNodes : List String) (sg sg' : SeqGraph)
    (targets : List String) : Prop :=
  SExtends sg sg' ∧
  SeqLoopPre redges allNodes sg' ∧
  (∀ t ∈ targets, ∀ rule, resolveRule proj t = some rule →
    rule.path ∈ sg'.nodes) ∧
  (∀ u ∈ sg'.nodes, u ∉ sg.nodes → ∃ t ∈ targets, ∃ rule,
    resolveRule proj t = some rule ∧
    Relation.ReflTransGen (redgeStep redges) rule.path u)

theorem seqTargetsLoop_nil (proj : Project) (g : RuleGraph)
    (redges : List (String × String)) (fuel : Nat) (sg : SeqGraph) :
    seqTargetsLoop proj g redges fuel sg [] = .ok sg := rfl

theorem seqTargetsLoop_cons_ok (proj : Project) (g : RuleGraph)
    (redges : List (String × String)) (fuel : Nat) (sg : SeqGraph)
    (t : String) (rest : List String) (rule : GRule)
    (hres : resolveRule proj t = some rule)
    (hnode : (g.node? rule.path).isSome) :
    seqTargetsLoop proj g redges fuel sg (t :: rest) = (do
      let sg1 ← seqGo redges fuel (.node sg rule.path)
      seqTargetsLoop proj g redges fuel sg1 rest) := by
  simp only [seqTargetsLoop, addSeqDeps, hres, hnode, if_true]

theorem seqTargetsLoop_main (proj : Project) (g : RuleGraph)
    (redges : List (String × String)) (allNodes : List String)
    (HredIn : ∀ e ∈ redges, e.1 ∈ allNodes ∧ e.2 ∈ allNodes)
    (targets : List String)
    (Htargets : ∀ t ∈ targets, ∃ rule, resolveRule proj t = some rule ∧
      (g.node? rule.path).isSome ∧ rule.path ∈ allNodes) :
    ∀ sg, SeqLoopPre redges allNodes sg →
    ∃ fuel0 sg', (∀ fuel, fuel0 ≤ fuel →
        seqTargetsLoop proj g redges fuel sg targets = .ok sg') ∧
      SeqLoopPost proj redges allNodes sg sg' targets := by
  induction targets with
  | nil =>
    intro sg hpre
    refine ⟨0, sg, fun fuel _ => seqTargetsLoop_nil proj g redges fuel sg,
      SExtends.refl' sg, hpre, ?_, ?_⟩
    · intro t ht
      exact absurd ht (List.not_mem_nil t)
    · intro u hu hnot
      exact absurd hu hnot
  | cons t rest ihrest =>
    intro sg hpre
    obtain ⟨p1, p2, p3, p4⟩ := hpre
    obtain ⟨rule, hres, hnodeSome, hpathAll⟩ :=
      Htargets t (List.mem_cons_self t rest)
    have hrestTargets : ∀ t2 ∈ rest, ∃ rule2,
        resolveRule proj t2 = some rule2 ∧
        (g.node? rule2.path).isSome ∧ rule2.path ∈ allNodes :=
      fun t2 ht2 => Htargets t2 (List.mem_cons_of_mem t ht2)
    have hpreN : SeqNodePre redges allNodes [] sg rule.path := by
      refine ⟨fun u hu => Or.inl (p1 u hu), ?_, p2, hpathAll, p3, p4⟩
      intro a ha
      exact absurd ha (List.not_mem_nil a)
    obtain ⟨fuelN, sgN, hN, pN1, pN2, pN3, pN4, pN5, pN6, pN7⟩ :=
      (seqGo_main redges allNodes HredIn (snewCard allNodes sg)).1
        [] sg rule.path (le_refl _) hpreN
    have hpreR : SeqLoopPre redges allNodes sgN := by
      refine ⟨?_, pN5, pN6, pN7⟩
      intro u hu
      rcases pN4 u hu with hc | ha
      · exact hc
      · exact absurd ha (List.not_mem_nil u)
    obtain ⟨fuel0R, sgF, hloopR, pL1, pL2, pL3, pL4⟩ := ihrest hrestTargets sgN hpreR
    refine ⟨max fuelN fuel0R, sgF, ?_, pN1.trans' pL1, pL2, ?_, ?_⟩
    · intro fuel hfuel
      rw [seqTargetsLoop_cons_ok proj g redges fuel sg t rest rule
        hres hnodeSome]
      have hN' : seqGo redges fuel (.node sg rule.path) = .ok sgN := by
        rw [seqGo_mono redges fuelN fuel _
          (le_trans (le_max_left _ _) hfuel) (by rw [hN]; simp), hN]
      rw [hN']
      show seqTargetsLoop proj g redges fuel sgN rest = .ok sgF
      exact hloopR fuel (le_trans (le_max_right _ _) hfuel)
    · intro t2 ht2 rule2 hres2
      rcases List.mem_cons.mp ht2 with rfl | h
      · rw [hres] at hres2
        obtain rfl := Option.some_inj.mp hres2
        exact pL1.nodes_subset' _ pN2
      · exact pL3 t2 h rule2 hres2
    · intro u hu hnot
      by_cases h2 : u ∈ sgN.nodes
      · exact ⟨t, List.mem_cons_self t rest, rule, hres, pN3 u h2 hnot⟩
      · obtain ⟨t2, ht2, rule2, hres2, hreach⟩ := pL4 u hu h2
        exact ⟨t2, List.mem_cons_of_mem t ht2, rule2, hres2, hreach⟩

theorem topoPick_exists (es : List (String × String))
    (HA : ∀ v, ¬ Relation.TransGen (fun a b => (a, b) ∈ es) v v)
    (ns : List String) (hne : ns ≠ []) :
    ∃ v ∈ ns, topoPick ns es = some v ∧
      ∀ e ∈ es, ¬(e.2 = v ∧ e.1 ∈ ns) := by
  have hmin : ∃ m ∈ ns, ∀ e ∈ es, ¬(e.2 = m ∧ e.1 ∈ ns) := by
    haveI hT : IsTrans {x // x ∈ ns.toFinset}
        (fun a b => Relation.TransGen (fun x y => (x, y) ∈ es) a.1 b.1) :=
      ⟨fun a b c hab hbc => hab.trans hbc⟩
    haveI hI : IsIrrefl {x // x ∈ ns.toFinset}
        (fun a b => Relation.TransGen (fun x y => (x, y) ∈ es) a.1 b.1) :=
      ⟨fun a hab => HA a.1 hab⟩
    have hwf := Finite.wellFounded_of_trans_of_irrefl
      (fun a b : {x // x ∈ ns.toFinset} =>
        Relation.TransGen (fun x y => (x, y) ∈ es) a.1 b.1)
    obtain ⟨x, hx⟩ := List.exists_mem_of_ne_nil ns hne
    obtain ⟨m, -, hmin⟩ := hwf.has_min Set.univ
      ⟨⟨x, List.mem_toFinset.mpr hx⟩, Set.mem_univ _⟩
    refine ⟨m.1, List.mem_toFinset.mp m.2, ?_⟩
    rintro e he ⟨h2, h1⟩
    refine hmin ⟨e.1, List.mem_toFinset.mpr h1⟩ (Set.mem_univ _) ?_
    refine Relation.TransGen.single ?_
    show (e.1, m.1) ∈ es
    rw [← h2]
    exact he
  obtain ⟨m, hm, hper⟩ := hmin
  have hsome : (topoPick ns es).isSome := by
    unfold topoPick
    rw [List.find?_isSome]
    refine ⟨m, hm, ?_⟩
    simp only [Bool.not_eq_true', List.any_eq_false]
    intro e he
    have h := hper e he
    by_cases h2 : e.2 = m
    · have h1 : e.1 ∉ ns := fun hc => h ⟨h2, hc⟩
      simp [h1]
    · simp [h2]
  obtain ⟨v, hv⟩ := Option.isSome_iff_exists.mp hsome
  have hv' : ns.find?
      (fun v => !(es.any (fun e => e.2 = v && decide (e.1 ∈ ns)))) =
      some v := hv
  have hvmem : v ∈ ns := List.mem_of_find?_eq_some hv'
  have hpv := List.find?_some hv'
  refine ⟨v, hvmem, hv, ?_⟩
  simp only [Bool.not_eq_true', List.any_eq_false] at hpv
  rintro e he ⟨h2, h1⟩
  have h3 := hpv e he
  simp [h2, h1] at h3

theorem topoSortLoop_succ_pick (es : List (String × String)) (fuel : Nat)
    (ns : List String) (v : String) (hpick : topoPick ns es = some v) :
    topoSortLoop es (fuel+1) ns = (do
      let rest ← topoSortLoop es fuel (ns.erase v)
      .ok (v :: rest)) := by
  simp only [topoSortLoop, hpick]

theorem topoSortLoop_main (es : List (String × String))
    (HA : ∀ v, ¬ Relation.TransGen (fun a b => (a, b) ∈ es) v v) :
    ∀ n : Nat, ∀ ns : List String, ns.length = n → ns.Nodup →
    ∃ sorted, topoSortLoop es ns.length ns = .ok sorted ∧
      sorted.Perm ns ∧
      ∀ a b, (a, b) ∈ es → a ∈ ns → b ∈ ns →
        sorted.indexOf a < sorted.indexOf b := by
  intro n
  induction n using Nat.strong_induction_on with
  | _ n ih =>
  intro ns hlen hnd
  by_cases hne : ns = []
  · subst hne
    refine ⟨[], rfl, List.Perm.refl [], ?_⟩
    intro a b hab ha hb
    exact absurd ha (List.not_mem_nil a)
  · obtain ⟨v, hvmem, hpick, hnopred⟩ := topoPick_exists es HA ns hne
    have hvlen : (ns.erase v).length = ns.length - 1 :=
      List.length_erase_of_mem hvmem
    have hpos : 0 < ns.length := List.length_pos.mpr hne
    have hlt : (ns.erase v).length < n := by omega
    obtain ⟨sorted', hrun', hperm', hord'⟩ :=
      ih _ hlt (ns.erase v) rfl (hnd.erase v)
    refine ⟨v :: sorted', ?_, ?_, ?_⟩
    · have hlen2 : ns.length = (ns.erase v).length + 1 := by omega
      rw [hlen2, topoSortLoop_succ_pick es _ ns v hpick, hrun']
      rfl
    · exact (hperm'.cons v).trans (List.perm_cons_erase hvmem).symm
    · intro a b hab ha hb
      have hbv : b ≠ v := fun h => hnopred (a, b) hab ⟨h, ha⟩
      have hbmem' : b ∈ ns.erase v := hnd.mem_erase_iff.mpr ⟨hbv, hb⟩
      by_cases hav : a = v
      · subst hav
        rw [List.indexOf_cons_self, List.indexOf_cons_ne sorted' hbv.symm]
        omega
      · have hamem' : a ∈ ns.erase v := hnd.mem_erase_iff.mpr ⟨hav, ha⟩
        have h := hord' a b hab hamem' hbmem'
        rw [List.indexOf_cons_ne sorted' (fun hc => hav hc.symm),
          List.indexOf_cons_ne sorted' hbv.symm]
        omega

theorem mapM_lookup_ok (proj : Project) (g : RuleGraph)
    (inv : GraphInv proj g) :
    ∀ l : List String, (∀ p ∈ l, p ∈ gNodes g) →
    ∃ rs : List GRule,
      l.mapM (fun p =>
        match g.node? p with
        | some pr => Except.ok pr.2
        | none => Except.error (GraphErr.keyError p)) = .ok rs ∧
      List.Forall₂ (fun p r => resolveRule proj p = some r) l rs := by
  intro l
  induction l with
  | nil =>
    intro _
    refine ⟨[], ?_, List.Forall₂.nil⟩
    rw [List.mapM_nil]
    rfl
  | cons p rest ihr =>
    intro hall
    have hp : p ∈ gNodes g := hall p (List.mem_cons_self p rest)
    have hsome : (g.node? p).isSome := node?_isSome_iff.mpr hp
    obtain ⟨pr, hpr⟩ := Option.isSome_iff_exists.mp hsome
    obtain ⟨hkey, hres⟩ := node?_value inv hpr
    obtain ⟨rs, hrun, hfa⟩ :=
      ihr (fun q hq => hall q (List.mem_cons_of_mem p hq))
    refine ⟨pr.2 :: rs, ?_, List.Forall₂.cons hres hfa⟩
    rw [List.mapM_cons, hpr, hrun]
    rfl

theorem redge_mem (es : List (String × String)) (a b : String) :
    (a, b) ∈ es.map (fun e => (e.2, e.1)) ↔ (b, a) ∈ es := by
  constructor
  · intro h
    obtain ⟨e, he, heq⟩ := List.mem_map.mp h
    have h1 : e.2 = a := congrArg Prod.fst heq
    have h2 : e.1 = b := congrArg Prod.snd heq
    have h3 : (b, a) = e := by
      rw [← h1, ← h2]
    rw [h3]
    exact he
  · intro h
    exact List.mem_map.mpr ⟨(b, a), h, rfl⟩

/-- Every sequence-graph node is closed under rule-path dependencies:
its dependencies were walked into the graph. -/
theorem sg_dep_closed {proj : Project} {g' : RuleGraph} {sg : SeqGraph}
    (inv : GraphInv proj g')
    (hdone : ∀ pr ∈ g'.ruleNodes, DepsDone proj g' pr.2)
    (hclosed : ∀ u ∈ sg.nodes,
      SClosed (g'.edges.map (fun e => (e.2, e.1))) sg u)
    (hsub : ∀ u ∈ sg.nodes, u ∈ gNodes g') :
    ∀ w u, depRelP proj w u → u ∈ sg.nodes →
      w ∈ sg.nodes ∧ (u, w) ∈ sg.edges := by
  intro w u hdep hu
  obtain ⟨-, ru, hru, hwdep⟩ := hdep
  have hun : u ∈ gNodes g' := hsub u hu
  have hpair : (u, ru) ∈ g'.ruleNodes := mem_gNodes_node_pair inv hru hun
  have hd := hdone (u, ru) hpair w hwdep
  have hrupath : ru.path = u := resolveRule_path hru
  have hedge : (w, u) ∈ g'.edges := by
    rw [← hrupath]
    exact hd.2.2
  have hredge : (u, w) ∈ g'.edges.map (fun e => (e.2, e.1)) :=
    (redge_mem g'.edges u w).mpr hedge
  exact hclosed u hu w hredge

/-- Transitive version of `sg_dep_closed`. -/
theorem sg_transdep_closed {proj : Project} {g' : RuleGraph} {sg : SeqGraph}
    (inv : GraphInv proj g')
    (hdone : ∀ pr ∈ g'.ruleNodes, DepsDone proj g' pr.2)
    (hclosed : ∀ u ∈ sg.nodes,
      SClosed (g'.edges.map (fun e => (e.2, e.1))) sg u)
    (hsub : ∀ u ∈ sg.nodes, u ∈ gNodes g') :
    ∀ w u, Relation.TransGen (depRelP proj) w u → u ∈ sg.nodes →
      w ∈ sg.nodes := by
  intro w u hchain
  induction hchain with
  | single h =>
    intro hu
    exact (sg_dep_closed inv hdone hclosed hsub _ _ h hu).1
  | tail h1 h2 ih =>
    intro hu
    exact ih ((sg_dep_closed inv hdone hclosed hsub _ _ h2 hu).1)

theorem forall₂_resolve_map_path (proj : Project) :
    ∀ {l : List String} {rs : List GRule},
      List.Forall₂ (fun p r => resolveRule proj p = some r) l rs →
      rs.map (fun r => r.path) = l := by
  intro l rs h
  induction h with
  | nil => rfl
  | cons h1 h2 ih =>
    rw [List.map_cons, resolveRule_path h1, ih]

/-- C1: on an acyclic project whose rule-path dependencies all
resolve, `calculate_rule_sequence` succeeds on any list of resolvable
targets and returns a duplicate-free rule sequence that contains
exactly the targets and their transitive rule-path dependencies
(rules unreachable from every target are absent), ordered so that
every rule a later rule transitively depends on appears at a strictly
earlier index. -/
theorem calculate_rule_sequence_correct (proj : Project) (g0 : RuleGraph)
    (targets : List String)
    (HR : ∀ r ∈ proj, ∀ d ∈ r.ruleDeps, ∃ dr, resolveRule proj d = some dr)
    (HA : ∀ p, ¬ Relation.TransGen (depRelP proj) p p)
    (HT : ∀ t ∈ targets, ∃ rt, resolveRule proj t = some rt)
    (inv0 : GraphInv proj g0)
    (done0 : ∀ pr ∈ g0.ruleNodes, DepsDone proj g0 pr.2) :
    ∃ fuel g' seq,
      calculateRuleSequence proj fuel g0 targets = .ok (g', seq) ∧
      seq.Nodup ∧
      (∀ r, r ∈ seq ↔ (resolveRule proj r.path = some r ∧
        ∃ t ∈ targets, ∃ rt, resolveRule proj t = some rt ∧
          (r.path = rt.path ∨
            Relation.TransGen (depRelP proj) r.path rt.path))) ∧
      (∀ (i j : Nat) (hi : i < seq.length) (hj : j < seq.length),
        Relation.TransGen (depRelP proj)
          (seq.get ⟨i, hi⟩).path (seq.get ⟨j, hj⟩).path → i < j) := by
  -- ensure phase
  have hpre0 : ScanPre proj [] g0 targets := by
    refine ⟨inv0, ?_, ?_⟩
    · intro pr hpr _ d hd
      have h := done0 pr hpr d hd
      exact ⟨h.1, h.2.1⟩
    · intro t ht
      exact ⟨HT t ht, fun a ha => absurd ha (List.not_mem_nil a)⟩
  obtain ⟨fuelE, g', rulesE, hens, hEx, hinv', hpp3, hpp4, hpp5, hpp6⟩ :=
    (ensureGo_main proj HR HA (newCard proj g0)).2 [] g0 targets
      (le_refl _) hpre0
  have hdoneAll : ∀ pr ∈ g'.ruleNodes, DepsDone proj g' pr.2 := by
    intro pr hpr
    by_cases h0 : pr ∈ g0.ruleNodes
    · exact (done0 pr h0).mono_d hEx
    · exact hpp5 pr hpr h0
  -- the reversed rule graph
  have hredIn : ∀ e ∈ g'.edges.map (fun e => (e.2, e.1)),
      e.1 ∈ gNodes g' ∧ e.2 ∈ gNodes g' := by
    intro e he
    obtain ⟨e0, he0, heq⟩ := List.mem_map.mp he
    obtain ⟨h1, prb, hprb, hkey, -⟩ := hinv'.edgesOK e0 he0
    have h2 : e0.2 ∈ gNodes g' := by
      rw [← hkey]
      exact List.mem_map.mpr ⟨prb, hprb, rfl⟩
    rw [← heq]
    exact ⟨h2, h1⟩
  have htl : ∀ t ∈ targets, ∃ rule, resolveRule proj t = some rule ∧
      (g'.node? rule.path).isSome ∧ rule.path ∈ gNodes g' := by
    intro t ht
    obtain ⟨rp, hres, hmemN, -⟩ := hpp3 t ht
    have hpath : rp.path = t := resolveRule_path hres
    refine ⟨rp, hres, ?_, ?_⟩
    · rw [node?_isSome_iff, hpath]
      exact hmemN
    · rw [hpath]
      exact hmemN
  -- sequence-graph walk from the targets
  obtain ⟨fuelL, sg, hloop, hLex, hLpre, hLtargets, hLreach⟩ :=
    seqTargetsLoop_main proj g' (g'.edges.map (fun e => (e.2, e.1)))
      (gNodes g') hredIn targets htl ⟨[], []⟩
      ⟨fun u hu => absurd hu (List.not_mem_nil u),
       fun u hu => absurd hu (List.not_mem_nil u),
       fun e he => absurd he (List.not_mem_nil e),
       List.nodup_nil⟩
  obtain ⟨hLclosed, hLsub, hLedges, hLnodup⟩ := hLpre
  -- topological sort of the re-reversed sequence graph
  have hrsgAcyc : ∀ v, ¬ Relation.TransGen
      (fun a b => (a, b) ∈ sg.edges.map (fun e => (e.2, e.1))) v v := by
    intro v hcyc
    refine HA v (Relation.TransGen.mono ?_ hcyc)
    intro x y hxy
    have h1 : (y, x) ∈ sg.edges := (redge_mem sg.edges x y).mp hxy
    have h2 : (y, x) ∈ g'.edges.map (fun e => (e.2, e.1)) := hLedges _ h1
    have h3 : (x, y) ∈ g'.edges := (redge_mem g'.edges y x).mp h2
    exact edge_to_depRelP hinv' h3
  obtain ⟨sorted, hsort, hperm, hord⟩ := topoSortLoop_main
    (sg.edges.map (fun e => (e.2, e.1))) hrsgAcyc sg.nodes.length
    sg.nodes rfl hLnodup
  have hsortedSub : ∀ p ∈ sorted, p ∈ gNodes g' := by
    intro p hp
    exact hLsub p (hperm.mem_iff.mp hp)
  obtain ⟨seq, hmap, hfa⟩ := mapM_lookup_ok proj g' hinv' sorted hsortedSub
  -- the run itself, at fuel big enough for both phases
  have hensF : ensureGo proj (max fuelE fuelL) (.present g0 targets) =
      .ok (g', rulesE) := by
    rw [ensureGo_mono proj fuelE (max fuelE fuelL) _ (le_max_left _ _)
      (by rw [hens]; simp), hens]
  have hrun : calculateRuleSequence proj (max fuelE fuelL) g0 targets =
      .ok (g', seq) := by
    unfold calculateRuleSequence ensureRulesPresent
    rw [hensF]
    show (do
      let sg2 ← seqTargetsLoop proj g'
        (g'.edges.map (fun e => (e.2, e.1))) (max fuelE fuelL)
        ⟨[], []⟩ targets
      let sorted2 ← topoSort ⟨sg2.nodes, sg2.edges.map (fun e => (e.2, e.1))⟩
      let seq2 ← sorted2.mapM (fun p =>
        match g'.node? p with
        | some pr => Except.ok pr.2
        | none => Except.error (GraphErr.keyError p))
      Except.ok (g', seq2)) = Except.ok (g', seq)
    rw [hloop (max fuelE fuelL) (le_max_right _ _)]
    show (do
      let sorted2 ← topoSort ⟨sg.nodes, sg.edges.map (fun e => (e.2, e.1))⟩
      let seq2 ← sorted2.mapM (fun p =>
        match g'.node? p with
        | some pr => Except.ok pr.2
        | none => Except.error (GraphErr.keyError p))
      Except.ok (g', seq2)) = Except.ok (g', seq)
    have htopo : topoSort ⟨sg.nodes, sg.edges.map (fun e => (e.2, e.1))⟩ =
        .ok sorted := hsort
    rw [htopo]
    show (do
      let seq2 ← sorted.mapM (fun p =>
        match g'.node? p with
        | some pr => Except.ok pr.2
        | none => Except.error (GraphErr.keyError p))
      Except.ok (g', seq2)) = Except.ok (g', seq)
    rw [hmap]
    rfl
  -- derived facts about the sequence
  have hpaths : seq.map (fun r => r.path) = sorted :=
    forall₂_resolve_map_path proj hfa
  have hsortedNodup : sorted.Nodup := (hperm.nodup_iff).mpr hLnodup
  have hseqNodup : seq.Nodup := by
    refine List.Nodup.of_map (fun r => r.path) ?_
    rw [hpaths]
    exact hsortedNodup
  have hchainIdx : ∀ pa pb, Relation.TransGen (depRelP proj) pa pb →
      pb ∈ sg.nodes → sorted.indexOf pa < sorted.indexOf pb := by
    intro pa pb hchain
    induction hchain with
    | single h =>
      intro hb
      obtain ⟨hwa, hedge⟩ :=
        sg_dep_closed hinv' hdoneAll hLclosed hLsub _ _ h hb
      exact hord _ _ ((redge_mem sg.edges _ _).mpr hedge) hwa hb
    | tail h1 h2 ih =>
      intro hb
      obtain ⟨hcmem, hedge⟩ :=
        sg_dep_closed hinv' hdoneAll hLclosed hLsub _ _ h2 hb
      have hlt2 := hord _ _ ((redge_mem sg.edges _ _).mpr hedge) hcmem hb
      exact lt_trans (ih hcmem) hlt2
  refine ⟨max fuelE fuelL, g', seq, hrun, hseqNodup, ?_, ?_⟩
  · -- membership characterisation
    intro r
    constructor
    · intro hr
      obtain ⟨p, hp, hres⟩ := forall₂_mem_right hfa r hr
      have hrpath : r.path = p := resolveRule_path hres
      have hpsg : p ∈ sg.nodes := hperm.mem_iff.mp hp
      obtain ⟨t, ht, rt, hrest, hreach⟩ :=
        hLreach p hpsg (List.not_mem_nil p)
      refine ⟨by rw [hrpath]; exact hres, t, ht, rt, hrest, ?_⟩
      have hconv : Relation.ReflTransGen (fun a b => depRelP proj b a)
          rt.path p :=
        Relation.ReflTransGen.mono (fun a b hab =>
          edge_to_depRelP hinv' ((redge_mem g'.edges a b).mp hab)) hreach
      have hconv2 : Relation.ReflTransGen (depRelP proj) p rt.path :=
        Relation.reflTransGen_swap.mp hconv
      rcases Relation.reflTransGen_iff_eq_or_transGen.mp hconv2 with
        heq | htg
      · left
        rw [hrpath, heq]
      · right
        rw [hrpath]
        exact htg
    · rintro ⟨hres, t, ht, rt, hrest, hcase⟩
      have hrtmem : rt.path ∈ sg.nodes := hLtargets t ht rt hrest
      have hmemsg : r.path ∈ sg.nodes := by
        rcases hcase with heq | htg
        · rw [heq]
          exact hrtmem
        · exact sg_transdep_closed hinv' hdoneAll hLclosed hLsub
            r.path rt.path htg hrtmem
      have hmemsorted : r.path ∈ sorted := hperm.mem_iff.mpr hmemsg
      obtain ⟨rr, hrr, hresrr⟩ := forall₂_mem_left hfa r.path hmemsorted
      rw [hres] at hresrr
      obtain rfl := Option.some_inj.mp hresrr
      exact hrr
  · -- dependencies-before-dependents ordering
    intro i j hi hj hdep
    obtain ⟨hlen2, hget⟩ := List.forall₂_iff_get.mp hfa
    have hi' : i < sorted.length := by omega
    have hj' : j < sorted.length := by omega
    have hgi : (seq.get ⟨i, hi⟩).path = sorted.get ⟨i, hi'⟩ :=
      resolveRule_path (hget i hi' hi)
    have hgj : (seq.get ⟨j, hj⟩).path = sorted.get ⟨j, hj'⟩ :=
      resolveRule_path (hget j hj' hj)
    have hjmem : (seq.get ⟨j, hj⟩).path ∈ sg.nodes := by
      rw [hgj]
      exact hperm.mem_iff.mp (List.get_mem sorted j hj')
    have hidxlt := hchainIdx _ _ hdep hjmem
    rw [hgi, hgj] at hidxlt
    have hIi : sorted.indexOf (sorted.get ⟨i, hi'⟩) = i :=
      List.indexOf_getElem hsortedNodup i hi'
    have hIj : sorted.indexOf (sorted.get ⟨j, hj'⟩) = j :=
      List.indexOf_getElem hsortedNodup j hj'
    rw [hIi, hIj] at hidxlt
    exact hidxlt

/-- A two-rule chain project: `A` depends on `B`, `B` on nothing. -/
def chainProject : Project := [⟨"m:A", ["m:B"]⟩, ⟨"m:B", []⟩]

theorem chainProject_depRel {a b : String}
    (h : depRelP chainProject a b) : a = "m:B" ∧ b = "m:A" := by
  obtain ⟨-, rb, hrb, hdep⟩ := h
  have hmem : rb ∈ chainProject := resolveRule_mem hrb
  have hpath : rb.path = b := resolveRule_path hrb
  rcases List.mem_cons.mp hmem with rfl | hmem2
  · refine ⟨?_, hpath.symm⟩
    have hdeps : (⟨"m:A", ["m:B"]⟩ : GRule).ruleDeps = ["m:B"] := rfl
    rw [hdeps] at hdep
    exact List.mem_singleton.mp hdep
  · obtain rfl := List.mem_singleton.mp hmem2
    have hdeps : (⟨"m:B", []⟩ : GRule).ruleDeps = [] := rfl
    rw [hdeps] at hdep
    exact absurd hdep (List.not_mem_nil a)

theorem chainProject_acyclic :
    ∀ p, ¬ Relation.TransGen (depRelP chainProject) p p := by
  have hstep : ∀ a b, Relation.TransGen (depRelP chainProject) a b →
      a = "m:B" ∧ b = "m:A" := by
    intro a b h
    induction h with
    | single h1 => exact chainProject_depRel h1
    | tail h1 h2 ih =>
      obtain ⟨ha, hmid⟩ := ih
      obtain ⟨hmid2, hc⟩ := chainProject_depRel h2
      rw [hmid] at hmid2
      exact absurd hmid2 (by decide)
  intro p hp
  obtain ⟨h1, h2⟩ := hstep p p hp
  rw [h1] at h2
  exact absurd h2 (by decide)

/-- Witness: the sequence-calculation theorem applied to the concrete
two-rule chain project with target `m:A`. -/
theorem calculate_rule_sequence_correct_witness :
    ∃ fuel g' seq,
      calculateRuleSequence chainProject fuel ⟨[], []⟩ ["m:A"] =
        .ok (g', seq) ∧
      seq.Nodup ∧
      (∀ r, r ∈ seq ↔ (resolveRule chainProject r.path = some r ∧
        ∃ t ∈ ["m:A"], ∃ rt, resolveRule chainProject t = some rt ∧
          (r.path = rt.path ∨
            Relation.TransGen (depRelP chainProject) r.path rt.path))) ∧
      (∀ (i j : Nat) (hi : i < seq.length) (hj : j < seq.length),
        Relation.TransGen (depRelP chainProject)
          (seq.get ⟨i, hi⟩).path (seq.get ⟨j, hj⟩).path → i < j) :=
  calculate_rule_sequence_correct chainProject ⟨[], []⟩ ["m:A"]
    (by
      intro r hr d hd
      rcases List.mem_cons.mp hr with rfl | hr2
      · have hdeps : (⟨"m:A", ["m:B"]⟩ : GRule).ruleDeps = ["m:B"] := rfl
        rw [hdeps] at hd
        obtain rfl := List.mem_singleton.mp hd
        exact ⟨⟨"m:B", []⟩, rfl⟩
      · obtain rfl := List.mem_singleton.mp hr2
        have hdeps : (⟨"m:B", []⟩ : GRule).ruleDeps = [] := rfl
        rw [hdeps] at hd
        exact absurd hd (List.not_mem_nil d))
    chainProject_acyclic
    (by
      intro t ht
      obtain rfl := List.mem_singleton.mp ht
      exact ⟨⟨"m:A", ["m:B"]⟩, rfl⟩)
    ⟨fun pr hpr => absurd hpr (List.not_mem_nil pr),
     fun e he => absurd he (List.not_mem_nil e)⟩
    (fun pr hpr => absurd hpr (List.not_mem_nil pr))

end Anvil
